import Mathlib

/-!
Verification of the Prelu graph-rewrite engine
(`tfjs_graph_converter/convert_prelu.py`).

The source file `convert_prelu.py` is embedded directly.  Its helper module
`graph_rewrite_util` (graph model, name generator, rewrite orchestrator,
weight-modifier registry) is not part of the repository snapshot, so those
helpers are modelled from the specification; each such definition carries a
doc comment starting with `Modelled from the spec:`.
-/

namespace PreluRewrite

/-- Attribute values of a graph node: the decoded `fused_ops` string list,
a constant tensor buffer (modelled over `ℚ`), or an opaque payload. -/
inductive AttrValue
  | listS (l : List String)
  | tensor (t : List Rat)
  | other (tag : String)
deriving DecidableEq, Repr

/-- A graph node (`NodeDef`): name, op tag, ordered input references and an
attribute map, mirroring the data model used by `convert_prelu.py`. -/
structure NodeDef where
  name  : String
  op    : String
  input : List String
  attr  : List (String × AttrValue)
deriving DecidableEq, Repr

/-- A graph is an ordered list of nodes. -/
abbrev GraphDef := List NodeDef

/-- Modelled from the spec: `NameToNode`, the rebuildable name index mapping
node names to nodes, built once per rewrite pass. -/
abbrev NameToNode := List (String × NodeDef)

/-- Look up an attribute value by key. -/
def getAttr (n : NodeDef) (k : String) : Option AttrValue :=
  (n.attr.find? (fun p => p.1 == k)).map (fun p => p.2)

/-- The decoded `fused_ops` attribute of a node, when present. -/
def fusedOps (n : NodeDef) : Option (List String) :=
  match getAttr n "fused_ops" with
  | some (.listS l) => some l
  | _ => none

/-- Modelled from the spec: the fused-convolution predicate — the op tag is
the fused Conv2D tag and the `fused_ops` list has the given activation as its
final entry. -/
def is_fused_conv2d (n : NodeDef) (act : String) : Bool :=
  n.op == "_FusedConv2D" &&
    (match fusedOps n with
     | some l => l.getLast? == some act
     | none => false)

/-- Modelled from the spec: the fused-matmul predicate, analogous to
`is_fused_conv2d`. -/
def is_fused_matmul (n : NodeDef) (act : String) : Bool :=
  n.op == "_FusedMatMul" &&
    (match fusedOps n with
     | some l => l.getLast? == some act
     | none => false)

/-- Drop a leading control-dependency marker from a reference's characters. -/
def stripControl (l : List Char) : List Char :=
  match l with
  | c :: rest => if c = '^' then rest else c :: rest
  | [] => []

/-- Modelled from the spec: strip port/control decoration from an input
reference to obtain the producing node's name. -/
def nodeNameOf (ref : String) : String :=
  String.mk ((stripControl ref.data).takeWhile (fun c => c != ':'))

/-- The k-th candidate of the deterministic disambiguation scheme:
the base name itself for `k = 0`, else the base followed by `_k`. -/
def numberedName (base : String) (k : Nat) : String :=
  match k with
  | 0 => base
  | k + 1 => base ++ "_" ++ toString (k + 1)

/-- Fuelled search for the first disambiguated candidate not present in the
set of taken names. -/
def freshLoop (base : String) (taken : List String) : Nat → Nat → String
  | k, 0 => numberedName base k
  | k, fuel + 1 =>
    let c := numberedName base k
    if taken.contains c then freshLoop base taken (k + 1) fuel else c

/-- Modelled from the spec: the Name Generator — strip the basis reference's
decoration, append the optional suffix with the fixed `/` separator, and
disambiguate against the name index.  The spec leaves the collision fallback
underdetermined (its design notes call it an open question) and prescribes a
total deterministic scheme with a numeric disambiguator as last resort, which
is what is modelled here. -/
def generate_name_from (basis : String) (index : NameToNode)
    (suffix : Option String := none) : String :=
  let base := nodeNameOf basis
  let base :=
    match suffix with
    | none => base
    | some s => base ++ "/" ++ s
  freshLoop base (index.map (fun p => p.1)) 0 (index.length + 1)

/-- Modelled from the spec: construct a fresh operation node with the given
op tag, input references and name, and an empty attribute map. -/
def make_op_node (op : String) (inputs : List String) (name : String) : NodeDef :=
  { name := name, op := op, input := inputs, attr := [] }

/-- Modelled from the spec: the attributes irrelevant to the unfused
primitive that must be dropped when copying attributes; the spec names
`fused_ops`. -/
def irrelevantAttrs : List String := ["fused_ops"]

/-- Modelled from the spec: copy the source node's attributes onto the
target, dropping the attributes irrelevant to the unfused primitive. -/
def copy_op_attrs (source target : NodeDef) : NodeDef :=
  { target with attr := source.attr.filter (fun p => !(irrelevantAttrs.contains p.1)) }

/-- The deferred weight-modifier transformations registered by the rewrite
builders; the only transformation used by `convert_prelu.py` is in-place
negation of the tensor buffer. -/
inductive WeightMod
  | negate
deriving DecidableEq, Repr

/-- Apply a weight modifier to a tensor buffer. -/
def WeightMod.apply : WeightMod → List Rat → List Rat
  | .negate, t => t.map (fun v => -v)

/-- Modelled from the spec: the weight-modifier registry, a mapping from a
tensor-holding node's name to the transformation to apply at finalization. -/
abbrev WeightModifiers := List (String × WeightMod)

/-- Modelled from the spec: keyed assignment into the registry with Python
dictionary semantics — an existing entry for the key is overwritten. -/
def setModifier (r : WeightModifiers) (k : String) (m : WeightMod) : WeightModifiers :=
  if r.any (fun p => p.1 == k) then
    r.map (fun p => if p.1 == k then (k, m) else p)
  else
    r ++ [(k, m)]

/-- Errors surfaced by a rewrite pass: a matched node whose shape does not
fit the builder's assumptions, reported with the offending node's name. -/
inductive RewriteError
  | unsupportedPattern (nodeName : String)
deriving DecidableEq, Repr

deriving instance DecidableEq for Except

/-- Lift an optional access into the rewrite-error monad, reporting the
offending node's name on failure. -/
def orUnsupported (o : Option α) (nm : String) : Except RewriteError α :=
  match o with
  | some a => .ok a
  | none => .error (.unsupportedPattern nm)

/-- Python-style list indexing: negative indices count from the end, and any
out-of-range access fails. -/
def pyGet (l : List α) (i : Int) : Option α :=
  if 0 ≤ i then l[i.toNat]?
  else
    let j := (l.length : Int) + i
    if 0 ≤ j then l[j.toNat]? else none

/-- The local `node_name` helper of `_split_fused_op`: derive a name from the
input reference at the given index, retrying with the matching `fused_ops`
entry as suffix when the name was already used in this builder call, and
record the name in the used set. -/
def node_name (inputs : List String) (fused_ops : List String)
    (input_node_map : NameToNode) (names_used : List String) (i : Nat)
    (nm : String) : Except RewriteError (String × List String) := do
  let ref ← orUnsupported inputs[i]? nm
  let name := generate_name_from ref input_node_map none
  let name ←
    if names_used.contains name then do
      let sfx ← orUnsupported (pyGet fused_ops ((i : Int) - 2)) nm
      pure (generate_name_from name input_node_map (some sfx))
    else
      pure name
  pure (name, names_used ++ [name])

/-- `_split_fused_op` from `convert_prelu.py`: split a fused
convolution/matmul node into `[primitive, bias-add, activation]`. -/
def _split_fused_op (node : NodeDef) (input_node_map : NameToNode)
    (reg : WeightModifiers) :
    Except RewriteError (List NodeDef × WeightModifiers) := do
  let fused_op_name := node.op.drop 6
  let fused_ops ← orUnsupported (fusedOps node) node.name
  let inputs := node.input
  let (n1, used) ← node_name inputs fused_ops input_node_map [] 1 node.name
  let fused_op := make_op_node fused_op_name (inputs.take 2) n1
  let fused_op := copy_op_attrs node fused_op
  let biasOp ← orUnsupported fused_ops[0]? node.name
  let in2 ← orUnsupported inputs[2]? node.name
  let (n2, used) ← node_name inputs fused_ops input_node_map used 2 node.name
  let bias_add := make_op_node biasOp [fused_op.name, in2] n2
  let bias_add := copy_op_attrs node bias_add
  let actOp ← orUnsupported fused_ops[1]? node.name
  let (n3, _) ← node_name inputs fused_ops input_node_map used 3 node.name
  let activation := make_op_node actOp (bias_add.name :: inputs.drop 3) n3
  pure ([fused_op, bias_add, activation], reg)

/-- `_split_prelu` from `convert_prelu.py`: expand a standalone `Prelu` node
into the five-node subgraph `[pos, neg_x, neg_relu, neg, add]`, registering a
deferred negation of the alpha tensor keyed by the alpha input reference. -/
def _split_prelu (node : NodeDef) (input_node_map : NameToNode)
    (weight_modifiers : WeightModifiers) :
    Except RewriteError (List NodeDef × WeightModifiers) := do
  let inputs := node.input
  let in0 ← orUnsupported inputs[0]? node.name
  let pos := make_op_node "Relu" [in0]
    (generate_name_from node.name input_node_map (some "Relu"))
  let neg_x := make_op_node "Neg" [in0]
    (generate_name_from node.name input_node_map (some "Neg"))
  let neg_relu := make_op_node "Relu" [neg_x.name]
    (generate_name_from node.name input_node_map (some "Relu_1"))
  let neg_alpha ← orUnsupported inputs[1]? node.name
  let neg := make_op_node "Mul" [neg_alpha, neg_relu.name]
    (generate_name_from node.name input_node_map (some "Mul"))
  let add := make_op_node "Add" [pos.name, neg.name]
    (generate_name_from node.name input_node_map (some "Add"))
  let wm := setModifier weight_modifiers neg_alpha .negate
  pure ([pos, neg_x, neg_relu, neg, add], wm)

/-- Modelled from the spec: build the name index over a graph. -/
def buildIndex (g : GraphDef) : NameToNode := g.map (fun n => (n.name, n))

/-- Modelled from the spec: the per-pass node walk of the rewrite
orchestrator — every node is tested against the predicate using the index
taken at the start of the pass; matched nodes are replaced in place by the
builder's output, and a rename from the matched node's name to the last
returned node's name is recorded. -/
def processPass (pred : NodeDef → Bool)
    (builder : NodeDef → NameToNode → WeightModifiers →
      Except RewriteError (List NodeDef × WeightModifiers))
    (index : NameToNode) :
    List NodeDef → WeightModifiers →
      Except RewriteError (List NodeDef × List (String × String) × WeightModifiers)
  | [], reg => .ok ([], [], reg)
  | n :: rest, reg =>
    if pred n then do
      let (newNodes, reg') ← builder n index reg
      let (tail, renames, reg'') ← processPass pred builder index rest reg'
      let lastName := ((newNodes.getLast?).map (fun m => m.name)).getD n.name
      .ok (newNodes ++ tail, (n.name, lastName) :: renames, reg'')
    else do
      let (tail, renames, reg') ← processPass pred builder index rest reg
      .ok (n :: tail, renames, reg')

/-- Modelled from the spec: rewrite a single input reference through the
recorded renames, preserving port and control-dependency decoration. -/
def rewriteRef (renames : List (String × String)) (ref : String) : String :=
  let ctrl : Bool := match ref.data with | '^' :: _ => true | _ => false
  let body := stripControl ref.data
  let nmL := body.takeWhile (fun c => c != ':')
  let port := body.drop nmL.length
  match renames.lookup (String.mk nmL) with
  | some newName =>
    String.mk ((if ctrl then ['^'] else []) ++ newName.data ++ port)
  | none => ref

/-- Apply the recorded renames to every input reference of a node. -/
def rewireNode (renames : List (String × String)) (n : NodeDef) : NodeDef :=
  { n with input := n.input.map (rewriteRef renames) }

/-- The stored tensor buffer of a constant-holding node, when present. -/
def getTensor (n : NodeDef) : Option (List Rat) :=
  match getAttr n "value" with
  | some (.tensor t) => some t
  | _ => none

/-- Replace the stored tensor buffer of a node. -/
def setTensor (n : NodeDef) (t : List Rat) : NodeDef :=
  { n with attr := n.attr.map (fun p => if p.1 == "value" then ("value", AttrValue.tensor t) else p) }

/-- Modelled from the spec: the finalization step — apply the registered
weight modifier, if any, to a node's stored tensor buffer, exactly once. -/
def applyModifiers (reg : WeightModifiers) (n : NodeDef) : NodeDef :=
  match reg.lookup n.name, getTensor n with
  | some m, some t => setTensor n (m.apply t)
  | _, _ => n

/-- Modelled from the spec: the rewrite orchestrator
`replace_matching_nodes` — build the index, walk the nodes, splice builder
output, rewire all references graph-wide, then apply the registered weight
modifiers once. -/
def replace_matching_nodes (g : GraphDef) (pred : NodeDef → Bool)
    (builder : NodeDef → NameToNode → WeightModifiers →
      Except RewriteError (List NodeDef × WeightModifiers)) :
    Except RewriteError GraphDef := do
  let (nodes, renames, reg) ← processPass pred builder (buildIndex g) g []
  let nodes := nodes.map (rewireNode renames)
  pure (nodes.map (applyModifiers reg))

/-- The predicate of `split_fused_prelu`: a fused convolution or matmul whose
final fused op is `Prelu`. -/
def fusedPreluPred (n : NodeDef) : Bool :=
  is_fused_conv2d n "Prelu" || is_fused_matmul n "Prelu"

/-- `split_fused_prelu` from `convert_prelu.py`. -/
def split_fused_prelu (input_graph_def : GraphDef) : Except RewriteError GraphDef :=
  replace_matching_nodes input_graph_def fusedPreluPred _split_fused_op

/-- The predicate of `replace_prelu`: a standalone `Prelu` node. -/
def preluPred (n : NodeDef) : Bool := n.op == "Prelu"

/-- `replace_prelu` from `convert_prelu.py`. -/
def replace_prelu (input_graph_def : GraphDef) : Except RewriteError GraphDef :=
  replace_matching_nodes input_graph_def preluPred _split_prelu

/-- The composed rewrite pipeline in the order mandated by the spec: first
split fused Prelu activations, then replace the remaining standalone ones. -/
def pipeline (g : GraphDef) : Except RewriteError GraphDef := do
  let g' ← split_fused_prelu g
  replace_prelu g'

/-! ### Scalar semantics of the primitive operations -/

/-- Scalar semantics of the primitive ops emitted by the Prelu expander. -/
def evalOp (op : String) (args : List Rat) : Option Rat :=
  match op, args with
  | "Relu", [x] => some (max x 0)
  | "Neg", [x] => some (-x)
  | "Mul", [a, b] => some (a * b)
  | "Add", [a, b] => some (a + b)
  | _, _ => none

/-- Evaluate a topologically ordered node list under an environment mapping
producer names to scalar values, returning the extended environment. -/
def evalNodes (env : List (String × Rat)) : List NodeDef → Option (List (String × Rat))
  | [] => some env
  | n :: rest => do
    let args ← n.input.mapM (fun r => env.lookup r)
    let v ← evalOp n.op args
    evalNodes ((n.name, v) :: env) rest

/-- Rectified linear unit. -/
def relu (x : Rat) : Rat := max x 0

/-- Parametric rectified linear unit: `x` for `x ≥ 0`, `alpha * x` otherwise. -/
def prelu (x alpha : Rat) : Rat := if 0 ≤ x then x else alpha * x

/-! ### Graph-level properties -/

/-- Every input reference of every node resolves to a node present in the
graph. -/
def Resolves (g : GraphDef) : Prop :=
  ∀ n ∈ g, ∀ ref ∈ n.input, ∃ m ∈ g, m.name = nodeNameOf ref

/-- A rank function witnessing that every edge goes from a lower-ranked
producer name to a higher-ranked consumer name. -/
def EdgeOk (r : String → Nat) (g : GraphDef) : Prop :=
  ∀ n ∈ g, ∀ ref ∈ n.input, r (nodeNameOf ref) < r n.name

/-- The graph's name-reference relation is acyclic: some rank function
decreases along every edge. -/
def AcyclicG (g : GraphDef) : Prop :=
  ∃ r : String → Nat, EdgeOk r g

instance (g : GraphDef) : Decidable (Resolves g) := by
  unfold Resolves
  infer_instance

instance (r : String → Nat) (g : GraphDef) : Decidable (EdgeOk r g) := by
  unfold EdgeOk
  infer_instance

/-- The list of node names of a graph, in order. -/
def nodeNames (g : GraphDef) : List String := g.map (fun n => n.name)

/-- The stored tensor of the node with the given name, when present. -/
def tensorAt (g : GraphDef) (nm : String) : Option (List Rat) :=
  (g.find? (fun n => n.name == nm)).bind getTensor

/-- The five fixed suffixes used by the Prelu expander, in emission order. -/
def preluSuffixes : List String := ["Relu", "Neg", "Relu_1", "Mul", "Add"]

/-- The candidate name the Prelu expander derives from a matched node's name
and one of its fixed suffixes. -/
def preluCand (n : NodeDef) (s : String) : String :=
  nodeNameOf n.name ++ "/" ++ s

/-- All candidate names the Prelu expander would derive for the matched
nodes of a graph, in order. -/
def preluCands (g : GraphDef) : List String :=
  (g.filter preluPred).flatMap (fun n => preluSuffixes.map (preluCand n))

/-- Freshness precondition for the Prelu pass: the input graph's node names
together with all candidate names derived from matched `Prelu` nodes are
pairwise distinct. -/
def preluFresh (g : GraphDef) : Prop :=
  (nodeNames g ++ preluCands g).Nodup

/-! ### Concrete example graphs -/

/-- A standalone `Prelu` node with inputs `x` and `alpha`. -/
def c1Node : NodeDef := ⟨"p", "Prelu", ["x", "alpha"], []⟩

/-- Minimal graph context for the Prelu expansion example. -/
def c1Graph : GraphDef :=
  [⟨"x", "Const", [], []⟩,
   ⟨"alpha", "Const", [], [("value", .tensor [1])]⟩,
   c1Node]

/-- A fused convolution node with a `Prelu` activation and well-formed
attributes. -/
def cFusedNode : NodeDef :=
  ⟨"f", "_FusedConv2D", ["x", "w", "b", "al"],
   [("fused_ops", .listS ["BiasAdd", "Prelu"]), ("T", .other "float")]⟩

/-- Graph context for the fused-split examples. -/
def cFusedGraph : GraphDef :=
  [⟨"x", "Const", [], []⟩,
   ⟨"w", "Const", [], []⟩,
   ⟨"b", "Const", [], []⟩,
   ⟨"al", "Const", [], [("value", .tensor [1])]⟩,
   cFusedNode]

/-- A node matching the fused-Prelu predicate whose `fused_ops` list has only
one entry. -/
def c10Node : NodeDef :=
  ⟨"f", "_FusedConv2D", ["x", "w", "b", "al"],
   [("fused_ops", .listS ["Prelu"])]⟩

/-- A `Prelu` node whose alpha input reference carries a port decoration. -/
def c4Graph : GraphDef :=
  [⟨"x", "Const", [], []⟩,
   ⟨"alphanode", "Const", [], [("value", .tensor [1, 2])]⟩,
   ⟨"p", "Prelu", ["x", "alphanode:0"], []⟩]

/-- The same graph with an undecorated alpha reference. -/
def c4GraphPlain : GraphDef :=
  [⟨"x", "Const", [], []⟩,
   ⟨"alphanode", "Const", [], [("value", .tensor [1, 2])]⟩,
   ⟨"p", "Prelu", ["x", "alphanode"], []⟩]

/-- Graph containing a node whose name collides with a derived candidate
name of the Prelu expander. -/
def c7Graph : GraphDef :=
  [⟨"x", "Const", [], []⟩,
   ⟨"p/Relu", "Const", [], []⟩,
   ⟨"al", "Const", [], [("value", .tensor [1])]⟩,
   ⟨"p", "Prelu", ["x", "al"], []⟩]

/-- Two fused-Prelu nodes sharing the same weights input, the second
consuming the first's output. -/
def c8Graph : GraphDef :=
  [⟨"w", "Const", [], []⟩,
   ⟨"x1", "Const", [], []⟩,
   ⟨"b1", "Const", [], []⟩,
   ⟨"a1", "Const", [], [("value", .tensor [1])]⟩,
   ⟨"b2", "Const", [], []⟩,
   ⟨"a2", "Const", [], [("value", .tensor [1])]⟩,
   ⟨"F1", "_FusedConv2D", ["x1", "w", "b1", "a1"],
    [("fused_ops", .listS ["BiasAdd", "Prelu"])]⟩,
   ⟨"F2", "_FusedConv2D", ["F1", "w", "b2", "a2"],
    [("fused_ops", .listS ["BiasAdd", "Prelu"])]⟩]

/-- Two `Prelu` nodes sharing the same alpha input. -/
def c9Graph : GraphDef :=
  [⟨"x1", "Const", [], []⟩,
   ⟨"x2", "Const", [], []⟩,
   ⟨"al", "Const", [], [("value", .tensor [1, 2])]⟩,
   ⟨"p1", "Prelu", ["x1", "al"], []⟩,
   ⟨"p2", "Prelu", ["x2", "al"], []⟩]

/-- The five nodes the Prelu expander emits for a matched node whose derived
candidate names are fresh. -/
def preluNodes (n : NodeDef) : List NodeDef :=
  let x0 := n.input.getD 0 ""
  let aref := n.input.getD 1 ""
  [⟨preluCand n "Relu", "Relu", [x0], []⟩,
   ⟨preluCand n "Neg", "Neg", [x0], []⟩,
   ⟨preluCand n "Relu_1", "Relu", [preluCand n "Neg"], []⟩,
   ⟨preluCand n "Mul", "Mul", [aref, preluCand n "Relu_1"], []⟩,
   ⟨preluCand n "Add", "Add", [preluCand n "Relu", preluCand n "Mul"], []⟩]

/-- An undecorated producer name: no port separator and no leading
control marker. -/
def PlainStr (s : String) : Prop :=
  (∀ c ∈ s.data, c ≠ ':') ∧ s.data.head? ≠ some '^'

/-- Every node of the graph has an undecorated name. -/
def PlainNames (g : GraphDef) : Prop := ∀ n ∈ g, PlainStr n.name

instance (s : String) : Decidable (PlainStr s) := by
  unfold PlainStr
  infer_instance

instance (g : GraphDef) : Decidable (PlainNames g) := by
  unfold PlainNames
  infer_instance

instance (g : GraphDef) : Decidable (preluFresh g) := by
  unfold preluFresh
  infer_instance

/-- The five nodes emitted by the Prelu expander for `c1Node`. -/
def c1Nodes : List NodeDef :=
  [⟨"p/Relu", "Relu", ["x"], []⟩,
   ⟨"p/Neg", "Neg", ["x"], []⟩,
   ⟨"p/Relu_1", "Relu", ["p/Neg"], []⟩,
   ⟨"p/Mul", "Mul", ["alpha", "p/Relu_1"], []⟩,
   ⟨"p/Add", "Add", ["p/Relu", "p/Mul"], []⟩]

/-- The pipeline's output on `cFusedGraph`. -/
def cFusedOut : GraphDef :=
  [⟨"x", "Const", [], []⟩,
   ⟨"w", "Const", [], []⟩,
   ⟨"b", "Const", [], []⟩,
   ⟨"al", "Const", [], [("value", .tensor [-1])]⟩,
   ⟨"w_1", "Conv2D", ["x", "w"], [("T", .other "float")]⟩,
   ⟨"b_1", "BiasAdd", ["w_1", "b"], [("T", .other "float")]⟩,
   ⟨"al_1/Relu", "Relu", ["b_1"], []⟩,
   ⟨"al_1/Neg", "Neg", ["b_1"], []⟩,
   ⟨"al_1/Relu_1", "Relu", ["al_1/Neg"], []⟩,
   ⟨"al_1/Mul", "Mul", ["al", "al_1/Relu_1"], []⟩,
   ⟨"al_1/Add", "Add", ["al_1/Relu", "al_1/Mul"], []⟩]

/-- The output of `replace_prelu` on `c4Graph`: the alpha tensor is NOT
negated, because the modifier was registered under the decorated reference
`alphanode:0`, which is not any node's name. -/
def c4Out : GraphDef :=
  [⟨"x", "Const", [], []⟩,
   ⟨"alphanode", "Const", [], [("value", .tensor [1, 2])]⟩,
   ⟨"p/Relu", "Relu", ["x"], []⟩,
   ⟨"p/Neg", "Neg", ["x"], []⟩,
   ⟨"p/Relu_1", "Relu", ["p/Neg"], []⟩,
   ⟨"p/Mul", "Mul", ["alphanode:0", "p/Relu_1"], []⟩,
   ⟨"p/Add", "Add", ["p/Relu", "p/Mul"], []⟩]

/-- The output of `replace_prelu` on `c4GraphPlain`: the alpha tensor is
negated exactly once. -/
def c4PlainOut : GraphDef :=
  [⟨"x", "Const", [], []⟩,
   ⟨"alphanode", "Const", [], [("value", .tensor [-1, -2])]⟩,
   ⟨"p/Relu", "Relu", ["x"], []⟩,
   ⟨"p/Neg", "Neg", ["x"], []⟩,
   ⟨"p/Relu_1", "Relu", ["p/Neg"], []⟩,
   ⟨"p/Mul", "Mul", ["alphanode", "p/Relu_1"], []⟩,
   ⟨"p/Add", "Add", ["p/Relu", "p/Mul"], []⟩]

/-- The pipeline's output on `c7Graph`: two distinct nodes carry the same
name `p/Relu_1`. -/
def c7Out : GraphDef :=
  [⟨"x", "Const", [], []⟩,
   ⟨"p/Relu", "Const", [], []⟩,
   ⟨"al", "Const", [], [("value", .tensor [-1])]⟩,
   ⟨"p/Relu_1", "Relu", ["x"], []⟩,
   ⟨"p/Neg", "Neg", ["x"], []⟩,
   ⟨"p/Relu_1", "Relu", ["p/Neg"], []⟩,
   ⟨"p/Mul", "Mul", ["al", "p/Relu_1"], []⟩,
   ⟨"p/Add", "Add", ["p/Relu_1", "p/Mul"], []⟩]

/-- The pipeline's output on `c8Graph`: both primitive convolution nodes are
named `w_1`, and the name-reference relation has the cycle
`w_1 → b1_1 → a1_1/Relu → a1_1/Add → w_1`. -/
def c8Out : GraphDef :=
  [⟨"w", "Const", [], []⟩,
   ⟨"x1", "Const", [], []⟩,
   ⟨"b1", "Const", [], []⟩,
   ⟨"a1", "Const", [], [("value", .tensor [-1])]⟩,
   ⟨"b2", "Const", [], []⟩,
   ⟨"a2", "Const", [], [("value", .tensor [-1])]⟩,
   ⟨"w_1", "Conv2D", ["x1", "w"], []⟩,
   ⟨"b1_1", "BiasAdd", ["w_1", "b1"], []⟩,
   ⟨"a1_1/Relu", "Relu", ["b1_1"], []⟩,
   ⟨"a1_1/Neg", "Neg", ["b1_1"], []⟩,
   ⟨"a1_1/Relu_1", "Relu", ["a1_1/Neg"], []⟩,
   ⟨"a1_1/Mul", "Mul", ["a1", "a1_1/Relu_1"], []⟩,
   ⟨"a1_1/Add", "Add", ["a1_1/Relu", "a1_1/Mul"], []⟩,
   ⟨"w_1", "Conv2D", ["a1_1/Add", "w"], []⟩,
   ⟨"b2_1", "BiasAdd", ["w_1", "b2"], []⟩,
   ⟨"a2_1/Relu", "Relu", ["b2_1"], []⟩,
   ⟨"a2_1/Neg", "Neg", ["b2_1"], []⟩,
   ⟨"a2_1/Relu_1", "Relu", ["a2_1/Neg"], []⟩,
   ⟨"a2_1/Mul", "Mul", ["a2", "a2_1/Relu_1"], []⟩,
   ⟨"a2_1/Add", "Add", ["a2_1/Relu", "a2_1/Mul"], []⟩]

/-- The output of `replace_prelu` on `c9Graph`: the shared alpha tensor is
negated exactly once. -/
def c9Out : GraphDef :=
  [⟨"x1", "Const", [], []⟩,
   ⟨"x2", "Const", [], []⟩,
   ⟨"al", "Const", [], [("value", .tensor [-1, -2])]⟩,
   ⟨"p1/Relu", "Relu", ["x1"], []⟩,
   ⟨"p1/Neg", "Neg", ["x1"], []⟩,
   ⟨"p1/Relu_1", "Relu", ["p1/Neg"], []⟩,
   ⟨"p1/Mul", "Mul", ["al", "p1/Relu_1"], []⟩,
   ⟨"p1/Add", "Add", ["p1/Relu", "p1/Mul"], []⟩,
   ⟨"p2/Relu", "Relu", ["x2"], []⟩,
   ⟨"p2/Neg", "Neg", ["x2"], []⟩,
   ⟨"p2/Relu_1", "Relu", ["p2/Neg"], []⟩,
   ⟨"p2/Mul", "Mul", ["al", "p2/Relu_1"], []⟩,
   ⟨"p2/Add", "Add", ["p2/Relu", "p2/Mul"], []⟩]

/-- The node list produced by the Prelu pass before rewiring, when every
derived candidate name is fresh: matched nodes are replaced by their
five-node expansion, other nodes are kept. -/
def preluExpand (l : List NodeDef) : List NodeDef :=
  l.flatMap (fun n => if preluPred n then preluNodes n else [n])

/-- The renames recorded by the Prelu pass under the freshness precondition:
every matched node's name maps to its expansion's final `Add` node. -/
def preluRenames (l : List NodeDef) : List (String × String) :=
  (l.filter preluPred).map (fun n => (n.name, preluCand n "Add"))

/-- Rank assignments for the five expansion nodes of a matched node, spaced
inside the scaled rank slot of the matched node. -/
def candEntries (r : String → Nat) (n : NodeDef) : List (String × Nat) :=
  [(preluCand n "Relu", 6 * r n.name + 1),
   (preluCand n "Neg", 6 * r n.name + 2),
   (preluCand n "Relu_1", 6 * r n.name + 3),
   (preluCand n "Mul", 6 * r n.name + 4),
   (preluCand n "Add", 6 * r n.name + 5)]

/-- The rank function for the rewritten graph: expansion nodes take their
assigned slot, every other name keeps its scaled input rank. -/
def preluRank (g : GraphDef) (r : String → Nat) : String → Nat := fun nm =>
  match ((g.filter preluPred).flatMap (candEntries r)).lookup nm with
  | some v => v
  | none => 6 * r nm

/-- The names of the kept and expansion nodes of the Prelu pass, in order. -/
def expandNames (l : List NodeDef) : List String :=
  l.flatMap (fun n =>
    if preluPred n then preluSuffixes.map (preluCand n) else [n.name])

/-! ### Basic lemmas -/

theorem freshLoop_not_mem (base : String) (taken : List String) (f : Nat)
    (h : taken.contains base = false) : freshLoop base taken 0 (f + 1) = base := by
  have hm : base ∉ taken := by simpa using h
  simp [freshLoop, numberedName, hm]

theorem generate_name_from_fresh (basis : String) (index : NameToNode) (s : String)
    (h : (index.map (fun p => p.1)).contains (nodeNameOf basis ++ "/" ++ s) = false) :
    generate_name_from basis index (some s) = nodeNameOf basis ++ "/" ++ s :=
  freshLoop_not_mem _ _ _ h

theorem rewriteRef_nil (ref : String) : rewriteRef [] ref = ref := rfl

theorem map_rewriteRef_nil (l : List String) : l.map (rewriteRef []) = l := by
  induction l with
  | nil => rfl
  | cons a t ih => simp [rewriteRef_nil, ih]

theorem rewireNode_nil (n : NodeDef) : rewireNode [] n = n := by
  cases n
  simp [rewireNode, map_rewriteRef_nil]

theorem applyModifiers_nil (n : NodeDef) : applyModifiers [] n = n := rfl

theorem rewireNode_name (rn : List (String × String)) (n : NodeDef) :
    (rewireNode rn n).name = n.name := rfl

theorem rewireNode_op (rn : List (String × String)) (n : NodeDef) :
    (rewireNode rn n).op = n.op := rfl

theorem rewireNode_attr (rn : List (String × String)) (n : NodeDef) :
    (rewireNode rn n).attr = n.attr := rfl

theorem rewireNode_input (rn : List (String × String)) (n : NodeDef) :
    (rewireNode rn n).input = n.input.map (rewriteRef rn) := rfl

theorem setTensor_name (n : NodeDef) (t : List Rat) : (setTensor n t).name = n.name := rfl

theorem applyModifiers_name (reg : WeightModifiers) (n : NodeDef) :
    (applyModifiers reg n).name = n.name := by
  unfold applyModifiers
  split <;> rfl

theorem applyModifiers_op (reg : WeightModifiers) (n : NodeDef) :
    (applyModifiers reg n).op = n.op := by
  unfold applyModifiers
  split <;> rfl

theorem applyModifiers_input (reg : WeightModifiers) (n : NodeDef) :
    (applyModifiers reg n).input = n.input := by
  unfold applyModifiers
  split <;> rfl

theorem find?_setTensorMap (t : List Rat) (k : String) (hk : ("value" == k) = false) :
    ∀ l : List (String × AttrValue),
      (l.map (fun p => if p.1 == "value" then ("value", AttrValue.tensor t) else p)).find?
          (fun p => p.1 == k) = l.find? (fun p => p.1 == k)
  | [] => rfl
  | p :: rest => by
    by_cases hv : (p.1 == "value") = true
    · have hpk : (p.1 == k) = false := by rw [eq_of_beq hv]; exact hk
      simp only [List.map_cons, if_pos hv, List.find?_cons, hpk, hk, Bool.false_eq_true,
        if_false]
      exact find?_setTensorMap t k hk rest
    · simp only [List.map_cons, if_neg hv, List.find?_cons]
      by_cases hpk : (p.1 == k) = true
      · simp only [hpk, if_true]
      · have hpk' : (p.1 == k) = false := by simpa using hpk
        simp only [hpk', Bool.false_eq_true, if_false]
        exact find?_setTensorMap t k hk rest

theorem getAttr_applyModifiers (reg : WeightModifiers) (n : NodeDef) (k : String)
    (hk : ("value" == k) = false) :
    getAttr (applyModifiers reg n) k = getAttr n k := by
  unfold applyModifiers
  split
  · rename_i m t h1 h2
    unfold getAttr setTensor
    rw [find?_setTensorMap (m.apply t) k hk n.attr]
  · rfl

theorem fusedOps_applyModifiers (reg : WeightModifiers) (n : NodeDef) :
    fusedOps (applyModifiers reg n) = fusedOps n := by
  unfold fusedOps
  rw [getAttr_applyModifiers _ _ _ (by decide)]

theorem fusedOps_rewireNode (rn : List (String × String)) (n : NodeDef) :
    fusedOps (rewireNode rn n) = fusedOps n := rfl

theorem fusedPreluPred_transport (reg : WeightModifiers) (rn : List (String × String))
    (n : NodeDef) :
    fusedPreluPred (applyModifiers reg (rewireNode rn n)) = fusedPreluPred n := by
  unfold fusedPreluPred is_fused_conv2d is_fused_matmul
  rw [applyModifiers_op, rewireNode_op, fusedOps_applyModifiers, fusedOps_rewireNode]

theorem preluPred_transport (reg : WeightModifiers) (rn : List (String × String))
    (n : NodeDef) :
    preluPred (applyModifiers reg (rewireNode rn n)) = preluPred n := by
  unfold preluPred
  rw [applyModifiers_op, rewireNode_op]

theorem exceptBind_ok {ε α β : Type} (a : α) (f : α → Except ε β) :
    (Except.ok a >>= f : Except ε β) = f a := rfl

theorem exceptBind_error {ε α β : Type} (e : ε) (f : α → Except ε β) :
    (Except.error e >>= f : Except ε β) = Except.error e := rfl

theorem map_id_of_eq {α : Type} (f : α → α) (l : List α) (h : ∀ x, f x = x) :
    l.map f = l := by
  induction l with
  | nil => rfl
  | cons a t ih => simp [h, ih]

theorem processPass_nomatch (pred : NodeDef → Bool)
    (builder : NodeDef → NameToNode → WeightModifiers →
      Except RewriteError (List NodeDef × WeightModifiers))
    (index : NameToNode) :
    ∀ (l : List NodeDef) (reg : WeightModifiers), (∀ n ∈ l, pred n = false) →
      processPass pred builder index l reg = .ok (l, [], reg)
  | [], _, _ => rfl
  | n :: rest, reg, h => by
    have hn : pred n = false := h n (List.mem_cons_self n rest)
    have ih := processPass_nomatch pred builder index rest reg
      (fun m hm => h m (List.mem_cons_of_mem _ hm))
    simp [processPass, hn, ih, exceptBind_ok]

theorem replace_matching_nodes_nomatch (g : GraphDef) (pred : NodeDef → Bool)
    (builder : NodeDef → NameToNode → WeightModifiers →
      Except RewriteError (List NodeDef × WeightModifiers))
    (h : ∀ n ∈ g, pred n = false) :
    replace_matching_nodes g pred builder = .ok g := by
  have hp := processPass_nomatch pred builder (buildIndex g) g [] h
  simp only [replace_matching_nodes, hp, exceptBind_ok]
  simp [map_id_of_eq _ _ rewireNode_nil, map_id_of_eq _ _ applyModifiers_nil, pure, Except.pure]

theorem processPass_mem (pred : NodeDef → Bool)
    (builder : NodeDef → NameToNode → WeightModifiers →
      Except RewriteError (List NodeDef × WeightModifiers))
    (index : NameToNode) :
    ∀ (l : List NodeDef) (reg : WeightModifiers) (ns : List NodeDef)
      (rn : List (String × String)) (reg' : WeightModifiers),
      processPass pred builder index l reg = .ok (ns, rn, reg') →
      ∀ x ∈ ns, (x ∈ l ∧ pred x = false) ∨
        (∃ n ∈ l, pred n = true ∧
          ∃ r1 out r2, builder n index r1 = .ok (out, r2) ∧ x ∈ out) := by
  intro l
  induction l with
  | nil =>
    intro reg ns rn reg' h x hx
    unfold processPass at h
    cases h
    simp at hx
  | cons n rest ih =>
    intro reg ns rn reg' h x hx
    unfold processPass at h
    by_cases hp : pred n = true
    · rw [if_pos hp] at h
      cases hb : builder n index reg with
      | error e => rw [hb] at h; rw [exceptBind_error] at h; cases h
      | ok pr =>
        obtain ⟨newNodes, reg1⟩ := pr
        rw [hb] at h
        simp only [exceptBind_ok] at h
        cases hrest : processPass pred builder index rest reg1 with
        | error e => rw [hrest] at h; rw [exceptBind_error] at h; cases h
        | ok tr =>
          obtain ⟨tail, rn2, reg2⟩ := tr
          rw [hrest] at h
          simp only [exceptBind_ok] at h
          cases h
          rcases List.mem_append.mp hx with hx' | hx'
          · exact Or.inr ⟨n, List.mem_cons_self n rest, hp,
              reg, newNodes, reg1, hb, hx'⟩
          · rcases ih _ _ _ _ hrest x hx' with ⟨hm, hf⟩ | ⟨m, hm, hpm, hrest'⟩
            · exact Or.inl ⟨List.mem_cons_of_mem _ hm, hf⟩
            · exact Or.inr ⟨m, List.mem_cons_of_mem _ hm, hpm, hrest'⟩
    · rw [if_neg hp] at h
      cases hrest : processPass pred builder index rest reg with
      | error e => rw [hrest] at h; rw [exceptBind_error] at h; cases h
      | ok tr =>
        obtain ⟨tail, rn2, reg2⟩ := tr
        rw [hrest] at h
        simp only [exceptBind_ok] at h
        cases h
        rcases List.mem_cons.mp hx with hx' | hx'
        · subst hx'
          exact Or.inl ⟨List.mem_cons_self x rest, Bool.not_eq_true _ ▸ eq_false_of_ne_true hp⟩
        · rcases ih _ _ _ _ hrest x hx' with ⟨hm, hf⟩ | ⟨m, hm, hpm, hrest'⟩
          · exact Or.inl ⟨List.mem_cons_of_mem _ hm, hf⟩
          · exact Or.inr ⟨m, List.mem_cons_of_mem _ hm, hpm, hrest'⟩

theorem find?_fused_filter_none (l : List (String × AttrValue)) :
    (l.filter (fun p => !(irrelevantAttrs.contains p.1))).find?
      (fun p => p.1 == "fused_ops") = none := by
  induction l with
  | nil => rfl
  | cons p rest ih =>
    by_cases hp : (p.1 == "fused_ops") = true
    · have : irrelevantAttrs.contains p.1 = true := by
        simp [irrelevantAttrs, eq_of_beq hp]
      simp only [List.filter_cons, this, Bool.not_true, Bool.false_eq_true, if_false]
      exact ih
    · have hne : p.1 ≠ "fused_ops" := by
        intro hcon
        exact hp (by simp [hcon])
      have : irrelevantAttrs.contains p.1 = false := by
        simp [irrelevantAttrs, hne]
      simp only [List.filter_cons, this, Bool.not_false, if_true]
      rw [List.find?_cons_of_neg _ (by simpa using hne)]
      exact ih

theorem fusedOps_copy_op_attrs (source target : NodeDef) :
    fusedOps (copy_op_attrs source target) = none := by
  unfold fusedOps getAttr copy_op_attrs
  rw [find?_fused_filter_none]
  rfl

theorem fusedOps_make_op_node (op : String) (inputs : List String) (nm : String) :
    fusedOps (make_op_node op inputs nm) = none := rfl

theorem fusedPreluPred_of_fusedOps_none (n : NodeDef) (h : fusedOps n = none) :
    fusedPreluPred n = false := by
  unfold fusedPreluPred is_fused_conv2d is_fused_matmul
  rw [h]
  simp

theorem split_fused_ok_inv (node : NodeDef) (idx : NameToNode) (r1 : WeightModifiers)
    (out : List NodeDef) (r2 : WeightModifiers)
    (h : _split_fused_op node idx r1 = .ok (out, r2)) :
    r2 = r1 ∧ ∃ fl n1 n2 n3 biasOp actOp i2,
      fusedOps node = some fl ∧ fl[0]? = some biasOp ∧ fl[1]? = some actOp ∧
      node.input[2]? = some i2 ∧
      out = [copy_op_attrs node (make_op_node (node.op.drop 6) (node.input.take 2) n1),
             copy_op_attrs node (make_op_node biasOp [n1, i2] n2),
             make_op_node actOp (n2 :: node.input.drop 3) n3] := by
  unfold _split_fused_op at h
  cases hfo : fusedOps node with
  | none => rw [hfo] at h; simp only [orUnsupported, exceptBind_error] at h; cases h
  | some fl =>
    rw [hfo] at h
    simp only [orUnsupported, exceptBind_ok] at h
    cases h1 : node_name node.input fl idx [] 1 node.name with
    | error e => rw [h1] at h; simp only [exceptBind_error] at h; cases h
    | ok p1 =>
      obtain ⟨n1, used1⟩ := p1
      rw [h1] at h
      simp only [exceptBind_ok] at h
      cases hb0 : fl[0]? with
      | none => rw [hb0] at h; simp only [orUnsupported, exceptBind_error] at h; cases h
      | some biasOp =>
        rw [hb0] at h
        simp only [orUnsupported, exceptBind_ok] at h
        cases hi2 : node.input[2]? with
        | none => rw [hi2] at h; simp only [orUnsupported, exceptBind_error] at h; cases h
        | some i2 =>
          rw [hi2] at h
          simp only [orUnsupported, exceptBind_ok] at h
          cases h2 : node_name node.input fl idx used1 2 node.name with
          | error e => rw [h2] at h; simp only [exceptBind_error] at h; cases h
          | ok p2 =>
            obtain ⟨n2, used2⟩ := p2
            rw [h2] at h
            simp only [exceptBind_ok] at h
            cases hb1 : fl[1]? with
            | none => rw [hb1] at h; simp only [orUnsupported, exceptBind_error] at h; cases h
            | some actOp =>
              rw [hb1] at h
              simp only [orUnsupported, exceptBind_ok] at h
              cases h3 : node_name node.input fl idx used2 3 node.name with
              | error e => rw [h3] at h; simp only [exceptBind_error] at h; cases h
              | ok p3 =>
                obtain ⟨n3, used3⟩ := p3
                rw [h3] at h
                simp only [exceptBind_ok, pure, Except.pure] at h
                cases h
                exact ⟨rfl, fl, n1, n2, n3, biasOp, actOp, i2, rfl, hb0, hb1, rfl, rfl⟩

theorem split_prelu_ok_inv (node : NodeDef) (idx : NameToNode) (r1 : WeightModifiers)
    (out : List NodeDef) (r2 : WeightModifiers)
    (h : _split_prelu node idx r1 = .ok (out, r2)) :
    ∃ x0 aref,
      node.input[0]? = some x0 ∧ node.input[1]? = some aref ∧
      r2 = setModifier r1 aref .negate ∧
      out = [make_op_node "Relu" [x0] (generate_name_from node.name idx (some "Relu")),
             make_op_node "Neg" [x0] (generate_name_from node.name idx (some "Neg")),
             make_op_node "Relu" [generate_name_from node.name idx (some "Neg")]
               (generate_name_from node.name idx (some "Relu_1")),
             make_op_node "Mul" [aref, generate_name_from node.name idx (some "Relu_1")]
               (generate_name_from node.name idx (some "Mul")),
             make_op_node "Add" [generate_name_from node.name idx (some "Relu"),
               generate_name_from node.name idx (some "Mul")]
               (generate_name_from node.name idx (some "Add"))] := by
  unfold _split_prelu at h
  simp only [orUnsupported] at h
  cases h0 : node.input[0]? with
  | none => rw [h0] at h; simp only [orUnsupported, exceptBind_error] at h; cases h
  | some x0 =>
    rw [h0] at h
    simp only [orUnsupported, exceptBind_ok] at h
    cases h1 : node.input[1]? with
    | none => rw [h1] at h; simp only [orUnsupported, exceptBind_error] at h; cases h
    | some aref =>
      rw [h1] at h
      simp only [orUnsupported, exceptBind_ok, pure, Except.pure] at h
      cases h
      exact ⟨x0, aref, rfl, rfl, rfl, rfl⟩

theorem split_fused_out_pred_false (node : NodeDef) (idx : NameToNode)
    (r1 : WeightModifiers) (out : List NodeDef) (r2 : WeightModifiers)
    (h : _split_fused_op node idx r1 = .ok (out, r2)) :
    ∀ x ∈ out, fusedPreluPred x = false := by
  obtain ⟨-, fl, n1, n2, n3, biasOp, actOp, i2, -, -, -, -, hout⟩ :=
    split_fused_ok_inv node idx r1 out r2 h
  subst hout
  intro x hx
  simp only [List.mem_cons, List.not_mem_nil, or_false] at hx
  rcases hx with rfl | rfl | rfl
  · exact fusedPreluPred_of_fusedOps_none _ (fusedOps_copy_op_attrs _ _)
  · exact fusedPreluPred_of_fusedOps_none _ (fusedOps_copy_op_attrs _ _)
  · exact fusedPreluPred_of_fusedOps_none _ (fusedOps_make_op_node _ _ _)

theorem split_prelu_out_pred_false (node : NodeDef) (idx : NameToNode)
    (r1 : WeightModifiers) (out : List NodeDef) (r2 : WeightModifiers)
    (h : _split_prelu node idx r1 = .ok (out, r2)) :
    ∀ x ∈ out, preluPred x = false ∧ fusedPreluPred x = false := by
  obtain ⟨x0, aref, -, -, -, hout⟩ := split_prelu_ok_inv node idx r1 out r2 h
  subst hout
  intro x hx
  simp only [List.mem_cons, List.not_mem_nil, or_false] at hx
  refine ⟨?_, fusedPreluPred_of_fusedOps_none _ ?_⟩
  · rcases hx with rfl | rfl | rfl | rfl | rfl <;> rfl
  · rcases hx with rfl | rfl | rfl | rfl | rfl <;> rfl

theorem replace_matching_nodes_inv (g : GraphDef) (pred : NodeDef → Bool)
    (builder : NodeDef → NameToNode → WeightModifiers →
      Except RewriteError (List NodeDef × WeightModifiers))
    (g' : GraphDef) (h : replace_matching_nodes g pred builder = .ok g') :
    ∃ ns rn reg, processPass pred builder (buildIndex g) g [] = .ok (ns, rn, reg) ∧
      g' = (ns.map (rewireNode rn)).map (applyModifiers reg) := by
  unfold replace_matching_nodes at h
  cases hp : processPass pred builder (buildIndex g) g [] with
  | error e => rw [hp] at h; simp only [exceptBind_error] at h; cases h
  | ok tr =>
    obtain ⟨ns, rn, reg⟩ := tr
    rw [hp] at h
    simp only [exceptBind_ok, pure, Except.pure] at h
    cases h
    exact ⟨ns, rn, reg, rfl, rfl⟩

theorem pyGet_zero (l : List α) (a : α) (t : List α) (h : l = a :: t) :
    pyGet l 0 = some a := by
  subst h
  simp [pyGet]

theorem pyGet_one (l : List α) (a b : α) (t : List α) (h : l = a :: b :: t) :
    pyGet l 1 = some b := by
  subst h
  simp [pyGet]

theorem pyGet_neg_one (l : List α) (h : 1 ≤ l.length) :
    ∃ s, pyGet l (-1) = some s := by
  unfold pyGet
  have h0 : ¬ ((0 : Int) ≤ -1) := by omega
  rw [if_neg h0]
  have hj : (0 : Int) ≤ (l.length : Int) + (-1) := by omega
  rw [if_pos hj]
  have hlt : ((l.length : Int) + (-1)).toNat < l.length := by omega
  exact ⟨l[((l.length : Int) + (-1)).toNat], List.getElem?_eq_getElem hlt⟩

theorem node_name_ok (inputs fl : List String) (idx : NameToNode) (used : List String)
    (i : Nat) (nm ref : String) (hr : inputs[i]? = some ref)
    (hpy : ∃ s, pyGet fl ((i : Int) - 2) = some s) :
    ∃ out, node_name inputs fl idx used i nm = .ok (out, used ++ [out]) := by
  obtain ⟨s, hs⟩ := hpy
  unfold node_name
  rw [hr]
  simp only [orUnsupported, exceptBind_ok]
  by_cases hc : used.contains (generate_name_from ref idx none) = true
  · simp only [hc, if_true, hs, orUnsupported, exceptBind_ok, pure, Except.pure]
    exact ⟨_, rfl⟩
  · simp only [Bool.not_eq_true] at hc
    simp only [hc, Bool.false_eq_true, if_false, pure, Except.pure, exceptBind_ok]
    exact ⟨_, rfl⟩

theorem split_fused_char (nm opv : String) (attrv : List (String × AttrValue))
    (i0 i1 i2 i3 : String) (ir : List String) (f0 f1 : String) (fr : List String)
    (index : NameToNode) (reg : WeightModifiers)
    (hf : fusedOps ⟨nm, opv, i0 :: i1 :: i2 :: i3 :: ir, attrv⟩ = some (f0 :: f1 :: fr)) :
    ∃ n1 n2 n3,
      _split_fused_op ⟨nm, opv, i0 :: i1 :: i2 :: i3 :: ir, attrv⟩ index reg =
        .ok ([copy_op_attrs ⟨nm, opv, i0 :: i1 :: i2 :: i3 :: ir, attrv⟩
                (make_op_node (opv.drop 6) [i0, i1] n1),
              copy_op_attrs ⟨nm, opv, i0 :: i1 :: i2 :: i3 :: ir, attrv⟩
                (make_op_node f0 [n1, i2] n2),
              make_op_node f1 (n2 :: i3 :: ir) n3], reg) := by
  unfold _split_fused_op
  rw [hf]
  simp only [orUnsupported, exceptBind_ok]
  obtain ⟨n1, h1⟩ := node_name_ok (i0 :: i1 :: i2 :: i3 :: ir) (f0 :: f1 :: fr) index [] 1 nm
    i1 (by simp) (pyGet_neg_one _ (by simp))
  rw [h1]
  simp only [exceptBind_ok, List.getElem?_cons_zero, List.getElem?_cons_succ,
    orUnsupported]
  obtain ⟨n2, h2⟩ := node_name_ok (i0 :: i1 :: i2 :: i3 :: ir) (f0 :: f1 :: fr) index
    ([] ++ [n1]) 2 nm i2 (by simp) ⟨f0, pyGet_zero _ f0 (f1 :: fr) rfl⟩
  rw [h2]
  simp only [exceptBind_ok, List.getElem?_cons_zero, List.getElem?_cons_succ,
    orUnsupported]
  obtain ⟨n3, h3⟩ := node_name_ok (i0 :: i1 :: i2 :: i3 :: ir) (f0 :: f1 :: fr) index
    (([] ++ [n1]) ++ [n2]) 3 nm i3 (by simp) ⟨f1, pyGet_one _ f0 f1 fr rfl⟩
  rw [h3]
  simp only [exceptBind_ok, pure, Except.pure, List.getElem?_cons_zero,
    List.getElem?_cons_succ, orUnsupported]
  exact ⟨n1, n2, n3, rfl⟩

theorem split_fused_char2 (node : NodeDef) (index : NameToNode) (reg : WeightModifiers)
    (i0 i1 i2 i3 : String) (ir : List String) (f0 f1 : String) (fr : List String)
    (hin : node.input = i0 :: i1 :: i2 :: i3 :: ir)
    (hf : fusedOps node = some (f0 :: f1 :: fr)) :
    ∃ n1 n2 n3,
      _split_fused_op node index reg =
        .ok ([copy_op_attrs node (make_op_node (node.op.drop 6) [i0, i1] n1),
              copy_op_attrs node (make_op_node f0 [n1, i2] n2),
              make_op_node f1 (n2 :: i3 :: ir) n3], reg) := by
  obtain ⟨nmv, opv, inp, attrv⟩ := node
  dsimp only at hin hf
  subst hin
  exact split_fused_char nmv opv attrv i0 i1 i2 i3 ir f0 f1 fr index reg hf

theorem split_prelu_char (node : NodeDef) (idx : NameToNode) (reg : WeightModifiers)
    (x0 aref : String) (rest : List String) (hin : node.input = x0 :: aref :: rest) :
    _split_prelu node idx reg =
      .ok ([make_op_node "Relu" [x0] (generate_name_from node.name idx (some "Relu")),
            make_op_node "Neg" [x0] (generate_name_from node.name idx (some "Neg")),
            make_op_node "Relu" [generate_name_from node.name idx (some "Neg")]
              (generate_name_from node.name idx (some "Relu_1")),
            make_op_node "Mul" [aref, generate_name_from node.name idx (some "Relu_1")]
              (generate_name_from node.name idx (some "Mul")),
            make_op_node "Add" [generate_name_from node.name idx (some "Relu"),
              generate_name_from node.name idx (some "Mul")]
              (generate_name_from node.name idx (some "Add"))],
           setModifier reg aref .negate) := by
  unfold _split_prelu
  rw [hin]
  simp only [List.getElem?_cons_zero, List.getElem?_cons_succ, orUnsupported,
    exceptBind_ok, pure, Except.pure]
  rfl

theorem node_name_error (inputs fl : List String) (idx : NameToNode)
    (used : List String) (i : Nat) (nm : String) (e : RewriteError)
    (h : node_name inputs fl idx used i nm = .error e) :
    e = .unsupportedPattern nm := by
  unfold node_name at h
  cases hr : inputs[i]? with
  | none =>
    rw [hr] at h
    simp only [orUnsupported, exceptBind_error] at h
    cases h
    rfl
  | some ref =>
    rw [hr] at h
    simp only [orUnsupported, exceptBind_ok] at h
    by_cases hc : used.contains (generate_name_from ref idx none) = true
    · simp only [hc, if_true] at h
      cases hs : pyGet fl ((i : Int) - 2) with
      | none =>
        rw [hs] at h
        simp only [orUnsupported, exceptBind_error] at h
        cases h
        rfl
      | some s =>
        rw [hs] at h
        simp only [orUnsupported, exceptBind_ok, pure, Except.pure] at h
        cases h
    · simp only [Bool.not_eq_true] at hc
      simp only [hc, Bool.false_eq_true, if_false, pure, Except.pure, exceptBind_ok] at h
      cases h

theorem split_fused_malformed (node : NodeDef) (idx : NameToNode) (reg : WeightModifiers)
    (fl : List String) (hf : fusedOps node = some fl) (hlen : fl.length < 2) :
    _split_fused_op node idx reg = .error (.unsupportedPattern node.name) := by
  unfold _split_fused_op
  rw [hf]
  simp only [orUnsupported, exceptBind_ok]
  cases h1 : node_name node.input fl idx [] 1 node.name with
  | error e =>
    rw [exceptBind_error, node_name_error _ _ _ _ _ _ _ h1]
  | ok p1 =>
    obtain ⟨n1, used1⟩ := p1
    simp only [exceptBind_ok]
    cases hb0 : fl[0]? with
    | none => simp only [hb0, orUnsupported, exceptBind_error]
    | some biasOp =>
      simp only [hb0, orUnsupported, exceptBind_ok]
      cases hi2 : node.input[2]? with
      | none => simp only [hi2, orUnsupported, exceptBind_error]
      | some i2 =>
        simp only [hi2, orUnsupported, exceptBind_ok]
        cases h2 : node_name node.input fl idx used1 2 node.name with
        | error e =>
          rw [exceptBind_error, node_name_error _ _ _ _ _ _ _ h2]
        | ok p2 =>
          obtain ⟨n2, used2⟩ := p2
          simp only [exceptBind_ok]
          have hb1 : fl[1]? = none := List.getElem?_eq_none (by omega)
          simp only [hb1, orUnsupported, exceptBind_error]

theorem processPass_error (pred : NodeDef → Bool)
    (builder : NodeDef → NameToNode → WeightModifiers →
      Except RewriteError (List NodeDef × WeightModifiers))
    (index : NameToNode) :
    ∀ (l : List NodeDef) (reg : WeightModifiers) (n : NodeDef),
      n ∈ l → pred n = true →
      (∀ r, builder n index r = .error (.unsupportedPattern n.name)) →
      ∃ e, processPass pred builder index l reg = .error e
  | [], _, n, hmem, _, _ => absurd hmem (List.not_mem_nil n)
  | m :: rest, reg, n, hmem, hpred, hb => by
    by_cases hp : pred m = true
    · cases hbm : builder m index reg with
      | error e =>
        exact ⟨e, by simp [processPass, hp, hbm, exceptBind_error]⟩
      | ok pr =>
        obtain ⟨newNodes, reg1⟩ := pr
        have hmn : n ∈ rest := by
          rcases List.mem_cons.mp hmem with rfl | hr
          · rw [hb reg] at hbm; cases hbm
          · exact hr
        obtain ⟨e, he⟩ := processPass_error pred builder index rest reg1 n hmn hpred hb
        exact ⟨e, by simp [processPass, hp, hbm, he, exceptBind_ok, exceptBind_error]⟩
    · have hmn : n ∈ rest := by
        rcases List.mem_cons.mp hmem with rfl | hr
        · exact absurd hpred hp
        · exact hr
      obtain ⟨e, he⟩ := processPass_error pred builder index rest reg n hmn hpred hb
      exact ⟨e, by simp [processPass, hp, he, exceptBind_ok, exceptBind_error]⟩

theorem map_id_of_mem {α : Type} (f : α → α) :
    ∀ l : List α, (∀ x ∈ l, f x = x) → l.map f = l
  | [], _ => rfl
  | a :: t, h => by
    rw [List.map_cons, h a (List.mem_cons_self a t),
      map_id_of_mem f t (fun x hx => h x (List.mem_cons_of_mem _ hx))]

theorem lookup_map_over (k : String) (m : WeightMod) :
    ∀ r : WeightModifiers, r.any (fun p => p.1 == k) = true →
      List.lookup k (r.map (fun p => if p.1 == k then (k, m) else p)) = some m
  | [], h => by cases h
  | p :: rest, h => by
    by_cases hp : (p.1 == k) = true
    · rw [List.map_cons, if_pos hp]
      simp [List.lookup]
    · have hp' : (p.1 == k) = false := by simpa using hp
      have hk' : (k == p.1) = false := by
        simp only [beq_eq_false_iff_ne] at hp' ⊢
        exact fun hc => hp' hc.symm
      have hrest : rest.any (fun p => p.1 == k) = true := by
        simp only [List.any_cons, hp', Bool.false_or] at h
        exact h
      rw [List.map_cons, if_neg hp]
      simp only [List.lookup, hk']
      exact lookup_map_over k m rest hrest

theorem lookup_append_last (k : String) (m : WeightMod) :
    ∀ r : WeightModifiers, r.any (fun p => p.1 == k) = false →
      List.lookup k (r ++ [(k, m)]) = some m
  | [], _ => by simp [List.lookup]
  | p :: rest, h => by
    simp only [List.any_cons, Bool.or_eq_false_iff] at h
    have hk' : (k == p.1) = false := by
      simp only [beq_eq_false_iff_ne] at h ⊢
      exact fun hc => h.1 hc.symm
    rw [List.cons_append]
    simp only [List.lookup, hk']
    exact lookup_append_last k m rest h.2

theorem lookup_setModifier (r : WeightModifiers) (k : String) (m : WeightMod) :
    List.lookup k (setModifier r k m) = some m := by
  unfold setModifier
  cases hany : r.any (fun p => p.1 == k) with
  | true =>
    rw [if_pos rfl]
    exact lookup_map_over k m r hany
  | false =>
    rw [if_neg (by simp)]
    exact lookup_append_last k m r hany

theorem any_setModifier (r : WeightModifiers) (k : String) (m : WeightMod) :
    (setModifier r k m).any (fun p => p.1 == k) = true := by
  unfold setModifier
  cases hany : r.any (fun p => p.1 == k) with
  | true =>
    rw [if_pos rfl]
    rcases List.any_eq_true.mp hany with ⟨p, hp, hpk⟩
    refine List.any_eq_true.mpr ⟨(k, m), List.mem_map.mpr ⟨p, hp, by rw [if_pos hpk]⟩, by simp⟩
  | false =>
    rw [if_neg (by simp)]
    exact List.any_eq_true.mpr ⟨(k, m), by simp, by simp⟩

theorem setModifier_mem_fixed (r : WeightModifiers) (k : String) (m : WeightMod) :
    ∀ q ∈ setModifier r k m, (if q.1 == k then (k, m) else q) = q := by
  intro q hq
  unfold setModifier at hq
  cases hany : r.any (fun p => p.1 == k) with
  | true =>
    rw [if_pos hany] at hq
    rcases List.mem_map.mp hq with ⟨p, hp, rfl⟩
    by_cases hpk : (p.1 == k) = true
    · rw [if_pos hpk]
      simp
    · rw [if_neg hpk, if_neg hpk]
  | false =>
    rw [if_neg (by simp [hany])] at hq
    rcases List.mem_append.mp hq with hq | hq
    · have hall : ∀ p ∈ r, ¬ ((fun p => p.1 == k) p = true) := List.any_eq_false.mp hany
      have hqk : (q.1 == k) = false := by simpa using hall q hq
      rw [hqk]
      simp
    · simp only [List.mem_singleton] at hq
      subst hq
      simp

theorem setModifier_idem (r : WeightModifiers) (k : String) (m : WeightMod) :
    setModifier (setModifier r k m) k m = setModifier r k m := by
  have hany := any_setModifier r k m
  have hfix := setModifier_mem_fixed r k m
  generalize hs : setModifier r k m = s at hany hfix ⊢
  unfold setModifier
  rw [if_pos hany]
  exact map_id_of_mem _ _ hfix

theorem node_name_some (inputs fl : List String) (idx : NameToNode) (used : List String)
    (i : Nat) (nm : String) (out : String × List String)
    (h : node_name inputs fl idx used i nm = .ok out) :
    i < inputs.length := by
  unfold node_name at h
  cases hr : inputs[i]? with
  | none =>
    rw [hr] at h
    simp only [orUnsupported, exceptBind_error] at h
    cases h
  | some ref =>
    by_contra hlen
    rw [List.getElem?_eq_none (by omega)] at hr
    cases hr

theorem split_fused_ok_necessary (node : NodeDef) (idx : NameToNode)
    (r1 : WeightModifiers) (res : List NodeDef × WeightModifiers)
    (h : _split_fused_op node idx r1 = .ok res) :
    4 ≤ node.input.length ∧ ∃ fl, fusedOps node = some fl ∧ 2 ≤ fl.length := by
  unfold _split_fused_op at h
  cases hfo : fusedOps node with
  | none => rw [hfo] at h; simp only [orUnsupported, exceptBind_error] at h; cases h
  | some fl =>
    rw [hfo] at h
    simp only [orUnsupported, exceptBind_ok] at h
    cases h1 : node_name node.input fl idx [] 1 node.name with
    | error e => rw [h1] at h; simp only [exceptBind_error] at h; cases h
    | ok p1 =>
      obtain ⟨n1, used1⟩ := p1
      rw [h1] at h
      simp only [exceptBind_ok] at h
      cases hb0 : fl[0]? with
      | none => rw [hb0] at h; simp only [orUnsupported, exceptBind_error] at h; cases h
      | some biasOp =>
        rw [hb0] at h
        simp only [orUnsupported, exceptBind_ok] at h
        cases hi2 : node.input[2]? with
        | none => rw [hi2] at h; simp only [orUnsupported, exceptBind_error] at h; cases h
        | some i2 =>
          rw [hi2] at h
          simp only [orUnsupported, exceptBind_ok] at h
          cases h2 : node_name node.input fl idx used1 2 node.name with
          | error e => rw [h2] at h; simp only [exceptBind_error] at h; cases h
          | ok p2 =>
            obtain ⟨n2, used2⟩ := p2
            rw [h2] at h
            simp only [exceptBind_ok] at h
            cases hb1 : fl[1]? with
            | none => rw [hb1] at h; simp only [orUnsupported, exceptBind_error] at h; cases h
            | some actOp =>
              rw [hb1] at h
              simp only [orUnsupported, exceptBind_ok] at h
              cases h3 : node_name node.input fl idx used2 3 node.name with
              | error e => rw [h3] at h; simp only [exceptBind_error] at h; cases h
              | ok p3 =>
                have hlen3 := node_name_some node.input fl idx used2 3 node.name p3 h3
                have hfl : 1 < fl.length := by
                  by_contra hc
                  rw [List.getElem?_eq_none (by omega)] at hb1
                  cases hb1
                exact ⟨by omega, fl, rfl, by omega⟩

theorem fusedPred_fusedOps_some (n : NodeDef) (h : fusedPreluPred n = true) :
    ∃ fl, fusedOps n = some fl ∧ fl.getLast? = some "Prelu" := by
  unfold fusedPreluPred is_fused_conv2d is_fused_matmul at h
  cases hfo : fusedOps n with
  | none => rw [hfo] at h; simp at h
  | some fl =>
    rw [hfo] at h
    simp only [Bool.or_eq_true, Bool.and_eq_true, beq_iff_eq] at h
    rcases h with ⟨-, h⟩ | ⟨-, h⟩ <;> exact ⟨fl, rfl, h⟩


theorem takeWhile_all (p : Char → Bool) :
    ∀ l : List Char, (∀ c ∈ l, p c = true) → l.takeWhile p = l
  | [], _ => rfl
  | c :: t, h => by
    rw [List.takeWhile_cons, h c (List.mem_cons_self c t), if_pos rfl,
      takeWhile_all p t (fun d hd => h d (List.mem_cons_of_mem _ hd))]

theorem takeWhile_append_stop (p : Char → Bool) :
    ∀ (a b : List Char), (∀ c ∈ a, p c = true) →
      (∀ c, b.head? = some c → p c = false) →
      (a ++ b).takeWhile p = a
  | [], b, _, hb => by
    cases b with
    | nil => rfl
    | cons c t =>
      simp only [List.nil_append, List.takeWhile_cons, hb c rfl, Bool.false_eq_true,
        if_false]
  | a0 :: a, b, ha, hb => by
    rw [List.cons_append, List.takeWhile_cons, ha a0 (List.mem_cons_self a0 a), if_pos rfl,
      takeWhile_append_stop p a b (fun d hd => ha d (List.mem_cons_of_mem _ hd)) hb]

theorem head?_dropWhile (p : Char → Bool) :
    ∀ (l : List Char) (c : Char), (l.dropWhile p).head? = some c → p c = false
  | [], c, h => by cases h
  | a :: t, c, h => by
    rw [List.dropWhile_cons] at h
    by_cases hp : p a = true
    · rw [if_pos hp] at h
      exact head?_dropWhile p t c h
    · rw [if_neg hp] at h
      cases h
      simpa using hp

theorem drop_takeWhile_head (p : Char → Bool) (l : List Char) (c : Char)
    (h : (l.drop (l.takeWhile p).length).head? = some c) : p c = false := by
  have hdec : l.drop (l.takeWhile p).length = l.dropWhile p := by
    nth_rewrite 2 [← List.takeWhile_append_dropWhile (p := p) (l := l)]
    exact List.drop_left _ _
  rw [hdec] at h
  exact head?_dropWhile p l c h

theorem stripControl_of_head_ne (l : List Char) (h : l.head? ≠ some '^') :
    stripControl l = l := by
  cases l with
  | nil => rfl
  | cons c t =>
    show (if c = '^' then t else c :: t) = c :: t
    rw [if_neg]
    intro hc
    exact h (by rw [hc]; rfl)

theorem stripControl_caret (l : List Char) : stripControl ('^' :: l) = l := by
  show (if '^' = '^' then l else '^' :: l) = l
  rw [if_pos rfl]

theorem plain_nodeNameOf (s : String) (h : PlainStr s) : nodeNameOf s = s := by
  unfold nodeNameOf
  rw [stripControl_of_head_ne s.data h.2]
  rw [takeWhile_all _ s.data (fun c hc => by simpa using h.1 c hc)]

theorem string_data_append (a b : String) : (a ++ b).data = a.data ++ b.data := rfl

theorem suffix_chars : ∀ s ∈ preluSuffixes, ∀ c ∈ s.data, c ≠ ':' := by decide

theorem plainStr_cand (n : NodeDef) (s : String) (hs : s ∈ preluSuffixes)
    (h : PlainStr n.name) : PlainStr (preluCand n s) := by
  constructor
  · intro c hc
    unfold preluCand at hc
    rw [plain_nodeNameOf n.name h] at hc
    rw [string_data_append, string_data_append] at hc
    rcases List.mem_append.mp hc with hc | hc
    · rcases List.mem_append.mp hc with hc | hc
      · exact h.1 c hc
      · simp only [List.mem_singleton] at hc
        subst hc
        decide
    · exact suffix_chars s hs c hc
  · unfold preluCand
    rw [plain_nodeNameOf n.name h]
    rw [string_data_append, string_data_append]
    cases hd : n.name.data with
    | nil => simp
    | cons c t =>
      have : n.name.data.head? ≠ some '^' := h.2
      rw [hd] at this
      simp only [List.cons_append, List.head?_cons, ne_eq, Option.some.injEq] at this ⊢
      exact this

theorem nodeNameOf_cand (n : NodeDef) (s : String) (hs : s ∈ preluSuffixes)
    (h : PlainStr n.name) : nodeNameOf (preluCand n s) = preluCand n s :=
  plain_nodeNameOf _ (plainStr_cand n s hs h)

theorem rewriteRef_lookup_none (rn : List (String × String)) (ref : String)
    (h : List.lookup (nodeNameOf ref) rn = none) : rewriteRef rn ref = ref := by
  simp only [rewriteRef]
  unfold nodeNameOf at h
  rw [h]

theorem port_head (ref : String) (c : Char)
    (h : ((stripControl ref.data).drop
        ((stripControl ref.data).takeWhile (fun c => c != ':')).length).head? = some c) :
    c = ':' := by
  have := drop_takeWhile_head (fun c => c != ':') (stripControl ref.data) c h
  simpa using this

theorem rewriteRef_lookup_some (rn : List (String × String)) (ref v : String)
    (h : List.lookup (nodeNameOf ref) rn = some v)
    (hv : PlainStr v) : nodeNameOf (rewriteRef rn ref) = v := by
  simp only [rewriteRef]
  unfold nodeNameOf at h
  rw [h]
  have hport : ∀ c, (((stripControl ref.data).drop
      ((stripControl ref.data).takeWhile (fun c => c != ':')).length).head? = some c) →
      ((c != ':') = false) := by
    intro c hc
    rw [port_head ref c hc]
    decide
  have hvall : ∀ c ∈ v.data, (c != ':') = true := fun c hc => by simpa using hv.1 c hc
  by_cases hctrl : (match ref.data with | '^' :: _ => true | _ => false) = true
  · rw [if_pos hctrl]
    unfold nodeNameOf
    show String.mk ((stripControl ('^' :: (v.data ++ (stripControl ref.data).drop
        ((stripControl ref.data).takeWhile (fun c => c != ':')).length))).takeWhile
        (fun c => c != ':')) = v
    rw [stripControl_caret, takeWhile_append_stop _ v.data _ hvall hport]
  · rw [if_neg hctrl]
    unfold nodeNameOf
    show String.mk ((stripControl (v.data ++ (stripControl ref.data).drop
        ((stripControl ref.data).takeWhile (fun c => c != ':')).length)).takeWhile
        (fun c => c != ':')) = v
    have hhead : (v.data ++ (stripControl ref.data).drop
        ((stripControl ref.data).takeWhile (fun c => c != ':')).length).head? ≠
        some '^' := by
      cases hd : v.data with
      | nil =>
        rw [List.nil_append]
        intro hh
        cases hhv : ((stripControl ref.data).drop
            ((stripControl ref.data).takeWhile (fun c => c != ':')).length).head? with
        | none => rw [hhv] at hh; cases hh
        | some c =>
          rw [hhv] at hh
          have hcol := port_head ref c hhv
          cases hh
          exact absurd hcol (by decide)
      | cons c t =>
        have hne : (c :: t).head? ≠ some '^' := hd ▸ hv.2
        simp only [List.cons_append, List.head?_cons]
        simpa using hne
    rw [stripControl_of_head_ne _ hhead, takeWhile_append_stop _ v.data _ hvall hport]

theorem buildIndex_names (g : GraphDef) :
    (buildIndex g).map (fun p => p.1) = nodeNames g := by
  simp [buildIndex, nodeNames, List.map_map, Function.comp]

theorem lookup_none_of_no_key {β : Type} (k : String) :
    ∀ l : List (String × β), (∀ p ∈ l, p.1 ≠ k) → List.lookup k l = none
  | [], _ => rfl
  | p :: rest, h => by
    have hk : (k == p.1) = false := by
      simp only [beq_eq_false_iff_ne]
      exact fun hc => h p (List.mem_cons_self p rest) hc.symm
    simp only [List.lookup, hk]
    exact lookup_none_of_no_key k rest (fun q hq => h q (List.mem_cons_of_mem _ hq))

theorem lookup_isSome_of_key {β : Type} (k : String) :
    ∀ l : List (String × β), (∃ p ∈ l, p.1 = k) → ∃ v, List.lookup k l = some v
  | [], h => by
    rcases h with ⟨p, hp, _⟩
    cases hp
  | p :: rest, h => by
    by_cases hk : (k == p.1) = true
    · exact ⟨p.2, by simp [List.lookup, hk]⟩
    · have hk2 : (k == p.1) = false := by simpa using hk
      simp only [List.lookup, hk2]
      apply lookup_isSome_of_key k rest
      rcases h with ⟨q, hq, hqk⟩
      rcases List.mem_cons.mp hq with rfl | hq2
      · exact absurd (by simp [hqk] : (k == q.1) = true) (by simpa using hk)
      · exact ⟨q, hq2, hqk⟩

theorem lookup_map_pair {α : Type} (key : α → String) (val : α → String) (k v : String) :
    ∀ l : List α,
      List.lookup k (l.map (fun a => (key a, val a))) = some v →
      ∃ a ∈ l, key a = k ∧ v = val a
  | [], h => by cases h
  | a :: rest, h => by
    rw [List.map_cons] at h
    by_cases hk : (k == key a) = true
    · simp only [List.lookup, hk] at h
      cases h
      exact ⟨a, List.mem_cons_self a rest, (eq_of_beq hk).symm, rfl⟩
    · have hk2 : (k == key a) = false := by simpa using hk
      simp only [List.lookup, hk2] at h
      obtain ⟨b, hb, hbk, hbv⟩ := lookup_map_pair key val k v rest h
      exact ⟨b, List.mem_cons_of_mem _ hb, hbk, hbv⟩

theorem lookup_of_mem_nodup {β : Type} (k : String) (v : β) :
    ∀ l : List (String × β), (l.map Prod.fst).Nodup → (k, v) ∈ l →
      List.lookup k l = some v
  | [], _, hm => absurd hm (List.not_mem_nil _)
  | p :: rest, hnd, hm => by
    rw [List.map_cons] at hnd
    have hnd2 := List.nodup_cons.mp hnd
    rcases List.mem_cons.mp hm with heq | hm2
    · rw [← heq]
      simp [List.lookup]
    · have hkrest : k ∈ rest.map Prod.fst := List.mem_map.mpr ⟨(k, v), hm2, rfl⟩
      have hk : (k == p.1) = false := by
        simp only [beq_eq_false_iff_ne]
        intro hc
        exact hnd2.1 (hc ▸ hkrest)
      simp only [List.lookup, hk]
      exact lookup_of_mem_nodup k v rest hnd2.2 hm2

theorem preluFresh_names_nodup (g : GraphDef) (h : preluFresh g) : (nodeNames g).Nodup :=
  (List.nodup_append.mp h).1

theorem preluFresh_cands_nodup (g : GraphDef) (h : preluFresh g) : (preluCands g).Nodup :=
  (List.nodup_append.mp h).2.1

theorem preluFresh_disjoint (g : GraphDef) (h : preluFresh g) :
    ∀ c ∈ preluCands g, c ∉ nodeNames g := by
  have hd := (List.nodup_append.mp h).2.2
  intro c hc hcn
  exact hd hcn hc

theorem cand_mem_preluCands (g : GraphDef) (n : NodeDef) (s : String)
    (hn : n ∈ g) (hp : preluPred n = true) (hs : s ∈ preluSuffixes) :
    preluCand n s ∈ preluCands g := by
  unfold preluCands
  exact List.mem_flatMap.mpr ⟨n, List.mem_filter.mpr ⟨hn, hp⟩,
    List.mem_map.mpr ⟨s, hs, rfl⟩⟩

theorem preluFresh_not_contains (g : GraphDef) (hf : preluFresh g) (n : NodeDef)
    (hn : n ∈ g) (hp : preluPred n = true) :
    ∀ s ∈ preluSuffixes, (nodeNames g).contains (preluCand n s) = false := by
  intro s hs
  have hd := preluFresh_disjoint g hf _ (cand_mem_preluCands g n s hn hp hs)
  simpa using hd

theorem split_prelu_fresh (g : GraphDef) (n : NodeDef) (reg : WeightModifiers)
    (x0 aref : String) (rest : List String) (hin : n.input = x0 :: aref :: rest)
    (hfr : ∀ s ∈ preluSuffixes, (nodeNames g).contains (preluCand n s) = false) :
    _split_prelu n (buildIndex g) reg =
      .ok (preluNodes n, setModifier reg aref .negate) := by
  rw [split_prelu_char n (buildIndex g) reg x0 aref rest hin]
  have hg : ∀ s ∈ preluSuffixes,
      generate_name_from n.name (buildIndex g) (some s) = preluCand n s := by
    intro s hs
    have h1 : ((buildIndex g).map (fun p => p.1)).contains
        (nodeNameOf n.name ++ "/" ++ s) = false := by
      rw [buildIndex_names]
      exact hfr s hs
    exact generate_name_from_fresh n.name (buildIndex g) s h1
  rw [hg "Relu" (by decide), hg "Neg" (by decide), hg "Relu_1" (by decide),
    hg "Mul" (by decide), hg "Add" (by decide)]
  unfold preluNodes
  rw [hin]
  rfl

theorem preluNodes_getLast (n : NodeDef) :
    ((preluNodes n).getLast?.map (fun m => m.name)).getD n.name = preluCand n "Add" := rfl

theorem processPass_prelu_char (g : GraphDef) :
    ∀ (l : List NodeDef) (reg : WeightModifiers) (ns : List NodeDef)
      (rn : List (String × String)) (reg' : WeightModifiers),
      (∀ n ∈ l, preluPred n = true →
        ∀ s ∈ preluSuffixes, (nodeNames g).contains (preluCand n s) = false) →
      processPass preluPred _split_prelu (buildIndex g) l reg = .ok (ns, rn, reg') →
      ns = preluExpand l ∧ rn = preluRenames l ∧
      (∀ n ∈ l, preluPred n = true → ∃ x0 aref rest2, n.input = x0 :: aref :: rest2)
  | [], reg, ns, rn, reg', _, h => by
    unfold processPass at h
    cases h
    exact ⟨rfl, rfl, fun n hn => absurd hn (List.not_mem_nil n)⟩
  | n :: rest, reg, ns, rn, reg', hfr, h => by
    unfold processPass at h
    by_cases hp : preluPred n = true
    · rw [if_pos hp] at h
      cases hb : _split_prelu n (buildIndex g) reg with
      | error e => rw [hb] at h; rw [exceptBind_error] at h; cases h
      | ok pr =>
        obtain ⟨newNodes, reg1⟩ := pr
        rw [hb] at h
        simp only [exceptBind_ok] at h
        cases hrest : processPass preluPred _split_prelu (buildIndex g) rest reg1 with
        | error e => rw [hrest] at h; rw [exceptBind_error] at h; cases h
        | ok tr =>
          obtain ⟨tail, rn2, reg2⟩ := tr
          rw [hrest] at h
          simp only [exceptBind_ok] at h
          cases h
          obtain ⟨x0, aref, h0, h1, hreg, hout⟩ :=
            split_prelu_ok_inv n (buildIndex g) reg newNodes reg1 hb
          obtain ⟨rest2, hshape⟩ : ∃ r2, n.input = x0 :: aref :: r2 := by
            cases hin : n.input with
            | nil => rw [hin] at h0; cases h0
            | cons a t =>
              cases t with
              | nil =>
                rw [hin] at h1
                simp at h1
              | cons b t2 =>
                rw [hin] at h0 h1
                simp only [List.getElem?_cons_zero, Option.some.injEq] at h0
                simp only [List.getElem?_cons_succ, List.getElem?_cons_zero,
                  Option.some.injEq] at h1
                exact ⟨t2, by rw [h0, h1]⟩
          have hfix := split_prelu_fresh g n reg x0 aref rest2 hshape
            (hfr n (List.mem_cons_self n rest) hp)
          rw [hfix] at hb
          cases hb
          obtain ⟨htail, hrn2, hshapes⟩ := processPass_prelu_char g rest _ _ _ _
            (fun m hm => hfr m (List.mem_cons_of_mem _ hm)) hrest
          refine ⟨?_, ?_, ?_⟩
          · rw [htail]
            simp [preluExpand, hp]
          · rw [hrn2, preluNodes_getLast]
            simp [preluRenames, List.filter_cons, hp]
          · intro m hm hpm
            rcases List.mem_cons.mp hm with rfl | hm2
            · exact ⟨x0, aref, rest2, hshape⟩
            · exact hshapes m hm2 hpm
    · rw [if_neg hp] at h
      cases hrest : processPass preluPred _split_prelu (buildIndex g) rest reg with
      | error e => rw [hrest] at h; rw [exceptBind_error] at h; cases h
      | ok tr =>
        obtain ⟨tail, rn2, reg2⟩ := tr
        rw [hrest] at h
        simp only [exceptBind_ok] at h
        cases h
        obtain ⟨htail, hrn2, hshapes⟩ := processPass_prelu_char g rest _ _ _ _
          (fun m hm => hfr m (List.mem_cons_of_mem _ hm)) hrest
        have hp2 : preluPred n = false := by simpa using hp
        refine ⟨?_, ?_, ?_⟩
        · rw [htail]
          simp [preluExpand, hp2]
        · rw [hrn2]
          simp [preluRenames, List.filter_cons, hp2]
        · intro m hm hpm
          rcases List.mem_cons.mp hm with rfl | hm2
          · exact absurd hpm hp
          · exact hshapes m hm2 hpm

theorem replace_prelu_char (g g' : GraphDef) (hf : preluFresh g)
    (h : replace_prelu g = .ok g') :
    ∃ reg, g' = ((preluExpand g).map (rewireNode (preluRenames g))).map
        (applyModifiers reg) ∧
      (∀ n ∈ g, preluPred n = true → ∃ x0 aref rest2, n.input = x0 :: aref :: rest2) := by
  obtain ⟨ns, rn, reg, hp, hg'⟩ := replace_matching_nodes_inv g preluPred _split_prelu g' h
  obtain ⟨hns, hrn, hshapes⟩ := processPass_prelu_char g g [] ns rn reg
    (fun n hn hpn => preluFresh_not_contains g hf n hn hpn) hp
  exact ⟨reg, by rw [hg', hns, hrn], hshapes⟩

theorem nodeNames_double_map (rn : List (String × String)) (reg : WeightModifiers)
    (l : List NodeDef) :
    nodeNames ((l.map (rewireNode rn)).map (applyModifiers reg)) = nodeNames l := by
  simp [nodeNames, List.map_map, Function.comp, applyModifiers_name, rewireNode_name]

theorem nodeNames_preluExpand (l : List NodeDef) :
    nodeNames (preluExpand l) = expandNames l := by
  unfold nodeNames preluExpand expandNames
  rw [List.map_flatMap]
  congr 1
  funext n
  by_cases hp : preluPred n = true
  · rw [if_pos hp, if_pos hp]
    rfl
  · rw [if_neg hp, if_neg hp]
    rfl

theorem expandNames_perm :
    ∀ l : List NodeDef, (expandNames l).Perm
      (((l.filter (fun n => !(preluPred n))).map (fun n => n.name)) ++ preluCands l)
  | [] => by simp [expandNames, preluCands]
  | n :: rest => by
    have ih := expandNames_perm rest
    unfold expandNames preluCands at ih ⊢
    rw [List.flatMap_cons, List.filter_cons, List.filter_cons]
    by_cases hp : preluPred n = true
    · rw [if_pos hp]
      have hnp : (!(preluPred n)) = false := by rw [hp]; rfl
      rw [hnp, if_neg (by simp)]
      rw [if_pos hp, List.flatMap_cons]
      refine ((ih.append_left (preluSuffixes.map (preluCand n))).trans ?_)
      rw [← List.append_assoc, ← List.append_assoc]
      exact (List.perm_append_comm).append_right _
    · have hp2 : preluPred n = false := by simpa using hp
      rw [if_neg hp, hp2]
      have hnp : (!(false : Bool)) = true := rfl
      rw [hnp, if_pos rfl, List.map_cons, List.singleton_append, List.cons_append]
      exact ih.cons n.name

theorem unmatched_cands_nodup (g : GraphDef) (hf : preluFresh g) :
    (((g.filter (fun n => !(preluPred n))).map (fun n => n.name)) ++ preluCands g).Nodup := by
  have hsub : (((g.filter (fun n => !(preluPred n))).map (fun n => n.name)) ++
      preluCands g).Sublist (nodeNames g ++ preluCands g) := by
    have h1 : ((g.filter (fun n => !(preluPred n))).map (fun n => n.name)).Sublist
        (nodeNames g) := (List.filter_sublist g).map (fun n => n.name)
    exact h1.append_right (preluCands g)
  exact List.Nodup.sublist hsub hf

theorem mem_nodeNames (l : List NodeDef) (x : String) :
    x ∈ nodeNames l ↔ ∃ m ∈ l, m.name = x := by
  unfold nodeNames
  exact List.mem_map

theorem name_inj (g : GraphDef) (hnd : (nodeNames g).Nodup) (p m : NodeDef)
    (hp : p ∈ g) (hm : m ∈ g) (h : p.name = m.name) : p = m :=
  List.inj_on_of_nodup_map hnd hp hm h

theorem preluRenames_lookup_some (g : GraphDef) (k v : String)
    (h : List.lookup k (preluRenames g) = some v) :
    ∃ p ∈ g, preluPred p = true ∧ p.name = k ∧ v = preluCand p "Add" := by
  unfold preluRenames at h
  obtain ⟨a, ha, hak, hav⟩ := lookup_map_pair (fun n => n.name)
    (fun n => preluCand n "Add") k v (g.filter preluPred) h
  have hmem := List.mem_filter.mp ha
  exact ⟨a, hmem.1, hmem.2, hak, hav⟩

theorem preluRenames_lookup_isSome (g : GraphDef) (m : NodeDef) (hm : m ∈ g)
    (hp : preluPred m = true) :
    ∃ v, List.lookup m.name (preluRenames g) = some v := by
  apply lookup_isSome_of_key
  exact ⟨(m.name, preluCand m "Add"),
    List.mem_map.mpr ⟨m, List.mem_filter.mpr ⟨hm, hp⟩, rfl⟩, rfl⟩

theorem preluRenames_lookup_none (g : GraphDef) (hnd : (nodeNames g).Nodup)
    (m : NodeDef) (hm : m ∈ g) (hp : preluPred m = false) :
    List.lookup m.name (preluRenames g) = none := by
  apply lookup_none_of_no_key
  intro q hq hqk
  rcases List.mem_map.mp hq with ⟨p, hpmem, rfl⟩
  have hpm := List.mem_filter.mp hpmem
  have : p = m := name_inj g hnd p m hpm.1 hm hqk
  rw [this] at hpm
  rw [hpm.2] at hp
  cases hp

theorem preluRenames_lookup_none_of_not_name (g : GraphDef) (x : String)
    (hx : x ∉ nodeNames g) : List.lookup x (preluRenames g) = none := by
  apply lookup_none_of_no_key
  intro q hq hqk
  rcases List.mem_map.mp hq with ⟨p, hpmem, rfl⟩
  have hpm := List.mem_filter.mp hpmem
  exact hx (hqk ▸ (mem_nodeNames g _).mpr ⟨p, hpm.1, rfl⟩)

theorem assign_keys (g : GraphDef) (r : String → Nat) :
    ((g.filter preluPred).flatMap (candEntries r)).map Prod.fst = preluCands g := by
  unfold preluCands
  rw [List.map_flatMap]
  congr 1

theorem preluRank_of_not_cand (g : GraphDef) (r : String → Nat) (nm : String)
    (h : nm ∉ preluCands g) : preluRank g r nm = 6 * r nm := by
  have hnone : List.lookup nm ((g.filter preluPred).flatMap (candEntries r)) = none := by
    apply lookup_none_of_no_key
    intro p hp hc
    apply h
    have hmem : p.1 ∈ ((g.filter preluPred).flatMap (candEntries r)).map Prod.fst :=
      List.mem_map.mpr ⟨p, hp, rfl⟩
    rw [assign_keys] at hmem
    exact hc ▸ hmem
  unfold preluRank
  rw [hnone]

theorem preluRank_cand (g : GraphDef) (r : String → Nat) (hnd : (preluCands g).Nodup)
    (n : NodeDef) (hn : n ∈ g) (hp : preluPred n = true) (c : String) (v : Nat)
    (hm : (c, v) ∈ candEntries r n) : preluRank g r c = v := by
  have hmem : (c, v) ∈ (g.filter preluPred).flatMap (candEntries r) :=
    List.mem_flatMap.mpr ⟨n, List.mem_filter.mpr ⟨hn, hp⟩, hm⟩
  unfold preluRank
  rw [lookup_of_mem_nodup c v _ (by rw [assign_keys]; exact hnd) hmem]

theorem mem_expandNames_unmatched (l : List NodeDef) (n : NodeDef) (hn : n ∈ l)
    (hp : preluPred n = false) : n.name ∈ expandNames l := by
  unfold expandNames
  refine List.mem_flatMap.mpr ⟨n, hn, ?_⟩
  rw [if_neg (by simp [hp])]
  exact List.mem_singleton.mpr rfl

theorem mem_expandNames_cand (l : List NodeDef) (n : NodeDef) (hn : n ∈ l)
    (hp : preluPred n = true) (s : String) (hs : s ∈ preluSuffixes) :
    preluCand n s ∈ expandNames l := by
  unfold expandNames
  refine List.mem_flatMap.mpr ⟨n, hn, ?_⟩
  rw [if_pos hp]
  exact List.mem_map.mpr ⟨s, hs, rfl⟩

theorem cand_not_in_names (g : GraphDef) (hf : preluFresh g) (n : NodeDef)
    (hn : n ∈ g) (hp : preluPred n = true) (s : String) (hs : s ∈ preluSuffixes) :
    preluCand n s ∉ nodeNames g :=
  preluFresh_disjoint g hf _ (cand_mem_preluCands g n s hn hp hs)

theorem internal_ref_fixed (g : GraphDef) (hf : preluFresh g) (hpl : PlainNames g)
    (n : NodeDef) (hn : n ∈ g) (hp : preluPred n = true) (s : String)
    (hs : s ∈ preluSuffixes) :
    rewriteRef (preluRenames g) (preluCand n s) = preluCand n s := by
  apply rewriteRef_lookup_none
  rw [nodeNameOf_cand n s hs (hpl n hn)]
  exact preluRenames_lookup_none_of_not_name g _ (cand_not_in_names g hf n hn hp s hs)

theorem external_edge (g : GraphDef) (hf : preluFresh g) (hpl : PlainNames g)
    (hres : Resolves g) (r : String → Nat) (hr : EdgeOk r g)
    (n : NodeDef) (hn : n ∈ g) (ref : String) (href : ref ∈ n.input) :
    nodeNameOf (rewriteRef (preluRenames g) ref) ∈ expandNames g ∧
    preluRank g r (nodeNameOf (rewriteRef (preluRenames g) ref)) < 6 * r n.name := by
  obtain ⟨m, hm, hmname⟩ := hres n hn ref href
  have hedge : r (nodeNameOf ref) < r n.name := hr n hn ref href
  have hnd := preluFresh_names_nodup g hf
  cases hpm : preluPred m with
  | true =>
    obtain ⟨v, hv⟩ := preluRenames_lookup_isSome g m hm hpm
    rw [hmname] at hv
    obtain ⟨p, hpmem, hppred, hpname, hveq⟩ := preluRenames_lookup_some g _ v hv
    have hvplain : PlainStr v := hveq ▸ plainStr_cand p "Add" (by decide) (hpl p hpmem)
    have hrw := rewriteRef_lookup_some (preluRenames g) ref v hv hvplain
    rw [hrw]
    subst hveq
    constructor
    · exact mem_expandNames_cand g p hpmem hppred "Add" (by decide)
    · have hrank : preluRank g r (preluCand p "Add") = 6 * r p.name + 5 :=
        preluRank_cand g r (preluFresh_cands_nodup g hf) p hpmem hppred _ _
          (by simp [candEntries])
      rw [hrank, hpname]
      rw [← hmname] at hedge
      rw [hmname] at hedge
      have hle : r (nodeNameOf ref) + 1 ≤ r n.name := hedge
      omega
  | false =>
    have hnone : List.lookup (nodeNameOf ref) (preluRenames g) = none := by
      rw [← hmname]
      exact preluRenames_lookup_none g hnd m hm hpm
    rw [rewriteRef_lookup_none _ _ hnone]
    constructor
    · rw [← hmname]
      exact mem_expandNames_unmatched g m hm hpm
    · have hnotc : nodeNameOf ref ∉ preluCands g := by
        intro hc
        exact preluFresh_disjoint g hf _ hc ((mem_nodeNames g _).mpr ⟨m, hm, hmname⟩)
      rw [preluRank_of_not_cand g r _ hnotc]
      omega

theorem c8_main (g g' : GraphDef) (hf : preluFresh g) (hpl : PlainNames g)
    (hres : Resolves g) (r : String → Nat) (hr : EdgeOk r g)
    (h : replace_prelu g = .ok g') :
    Resolves g' ∧ EdgeOk (preluRank g r) g' := by
  obtain ⟨reg, hg', hshapes⟩ := replace_prelu_char g g' hf h
  have hnames2 : nodeNames g' = expandNames g := by
    rw [hg', nodeNames_double_map, nodeNames_preluExpand]
  have hmem2 : ∀ node2 ∈ g', ∃ y ∈ preluExpand g,
      node2.name = y.name ∧ node2.input = y.input.map (rewriteRef (preluRenames g)) := by
    intro node2 hnode2
    rw [hg'] at hnode2
    rcases List.mem_map.mp hnode2 with ⟨y1, hy1, rfl⟩
    rcases List.mem_map.mp hy1 with ⟨y, hy, rfl⟩
    exact ⟨y, hy, by rw [applyModifiers_name, rewireNode_name],
      by rw [applyModifiers_input, rewireNode_input]⟩
  have hy_char : ∀ y ∈ preluExpand g, ∃ n ∈ g,
      (preluPred n = false ∧ y = n) ∨ (preluPred n = true ∧ y ∈ preluNodes n) := by
    intro y hy
    rcases List.mem_flatMap.mp hy with ⟨n, hn, hyn⟩
    by_cases hp : preluPred n = true
    · rw [if_pos hp] at hyn
      exact ⟨n, hn, Or.inr ⟨hp, hyn⟩⟩
    · rw [if_neg hp] at hyn
      have hyeq := List.mem_singleton.mp hyn
      subst hyeq
      exact ⟨y, hn, Or.inl ⟨by simpa using hp, rfl⟩⟩
  have key : ∀ y ∈ preluExpand g, ∀ ref ∈ y.input,
      nodeNameOf (rewriteRef (preluRenames g) ref) ∈ expandNames g ∧
      preluRank g r (nodeNameOf (rewriteRef (preluRenames g) ref)) <
        preluRank g r y.name := by
    intro y hy ref href
    obtain ⟨n, hn, hcase⟩ := hy_char y hy
    rcases hcase with ⟨hp, rfl⟩ | ⟨hp, hyn⟩
    · have hyrank : preluRank g r y.name = 6 * r y.name := preluRank_of_not_cand g r _
        (fun hc => preluFresh_disjoint g hf _ hc ((mem_nodeNames g _).mpr ⟨y, hn, rfl⟩))
      rw [hyrank]
      exact external_edge g hf hpl hres r hr y hn ref href
    · obtain ⟨x0, aref, rest2, hshape⟩ := hshapes n hn hp
      have hint : ∀ s ∈ preluSuffixes,
          rewriteRef (preluRenames g) (preluCand n s) = preluCand n s :=
        fun s hs => internal_ref_fixed g hf hpl n hn hp s hs
      have hcrank : ∀ (s : String) (v : Nat), (preluCand n s, v) ∈ candEntries r n →
          preluRank g r (preluCand n s) = v :=
        fun s v hm => preluRank_cand g r (preluFresh_cands_nodup g hf) n hn hp _ _ hm
      have hncand : ∀ s ∈ preluSuffixes, nodeNameOf (preluCand n s) = preluCand n s :=
        fun s hs => nodeNameOf_cand n s hs (hpl n hn)
      have hx0 : x0 ∈ n.input := by
        rw [hshape]
        exact List.mem_cons_self _ _
      have haref : aref ∈ n.input := by
        rw [hshape]
        exact List.mem_cons_of_mem _ (List.mem_cons_self _ _)
      have hext := external_edge g hf hpl hres r hr n hn
      have hmemc : ∀ s ∈ preluSuffixes, preluCand n s ∈ expandNames g :=
        fun s hs => mem_expandNames_cand g n hn hp s hs
      unfold preluNodes at hyn
      rw [hshape] at hyn
      simp only [List.getD_cons_zero, List.getD_cons_succ, List.mem_cons,
        List.not_mem_nil, or_false] at hyn
      have hintRank : ∀ (s1 s2 : String) (v1 v2 : Nat), s1 ∈ preluSuffixes →
          (preluCand n s1, v1) ∈ candEntries r n →
          (preluCand n s2, v2) ∈ candEntries r n → v1 < v2 →
          nodeNameOf (rewriteRef (preluRenames g) (preluCand n s1)) ∈ expandNames g ∧
          preluRank g r (nodeNameOf (rewriteRef (preluRenames g) (preluCand n s1))) <
            preluRank g r (preluCand n s2) := by
        intro s1 s2 v1 v2 hs1 hm1 hm2 hv
        rw [hint s1 hs1, hncand s1 hs1, hcrank s1 v1 hm1, hcrank s2 v2 hm2]
        exact ⟨hmemc s1 hs1, hv⟩
      have hextRank : ∀ (x : String), x ∈ n.input → ∀ (s2 : String) (v2 : Nat),
          (preluCand n s2, v2) ∈ candEntries r n → 6 * r n.name ≤ v2 →
          nodeNameOf (rewriteRef (preluRenames g) x) ∈ expandNames g ∧
          preluRank g r (nodeNameOf (rewriteRef (preluRenames g) x)) <
            preluRank g r (preluCand n s2) := by
        intro x hx s2 v2 hm2 hv2
        rw [hcrank s2 v2 hm2]
        exact ⟨(hext x hx).1, lt_of_lt_of_le (hext x hx).2 hv2⟩
      rcases hyn with rfl | rfl | rfl | rfl | rfl
      · simp only [List.mem_cons, List.not_mem_nil, or_false] at href
        subst href
        exact hextRank _ hx0 "Relu" (6 * r n.name + 1) (by simp [candEntries]) (by omega)
      · simp only [List.mem_cons, List.not_mem_nil, or_false] at href
        subst href
        exact hextRank _ hx0 "Neg" (6 * r n.name + 2) (by simp [candEntries]) (by omega)
      · simp only [List.mem_cons, List.not_mem_nil, or_false] at href
        subst href
        exact hintRank "Neg" "Relu_1" (6 * r n.name + 2) (6 * r n.name + 3) (by decide)
          (by simp [candEntries]) (by simp [candEntries]) (by omega)
      · simp only [List.mem_cons, List.not_mem_nil, or_false] at href
        rcases href with rfl | rfl
        · exact hextRank _ haref "Mul" (6 * r n.name + 4) (by simp [candEntries]) (by omega)
        · exact hintRank "Relu_1" "Mul" (6 * r n.name + 3) (6 * r n.name + 4) (by decide)
            (by simp [candEntries]) (by simp [candEntries]) (by omega)
      · simp only [List.mem_cons, List.not_mem_nil, or_false] at href
        rcases href with rfl | rfl
        · exact hintRank "Relu" "Add" (6 * r n.name + 1) (6 * r n.name + 5) (by decide)
            (by simp [candEntries]) (by simp [candEntries]) (by omega)
        · exact hintRank "Mul" "Add" (6 * r n.name + 4) (6 * r n.name + 5) (by decide)
            (by simp [candEntries]) (by simp [candEntries]) (by omega)
  constructor
  · intro node2 hnode2 ref2 href2
    obtain ⟨y, hy, hname, hinput⟩ := hmem2 node2 hnode2
    rw [hinput] at href2
    rcases List.mem_map.mp href2 with ⟨ref, href, rfl⟩
    have hk := (key y hy ref href).1
    rw [← hnames2] at hk
    exact (mem_nodeNames g' _).mp hk
  · intro node2 hnode2 ref2 href2
    obtain ⟨y, hy, hname, hinput⟩ := hmem2 node2 hnode2
    rw [hinput] at href2
    rcases List.mem_map.mp href2 with ⟨ref, href, rfl⟩
    rw [hname]
    exact (key y hy ref href).2


/-! ### Claims -/

/-- Claim C1: for every scalar `x` and slope `alpha`, the five-node subgraph
emitted by the Prelu expander — `pos = Relu(x)`, `neg_x = Neg(x)`,
`neg_relu = Relu(neg_x)`, `neg = Mul(alpha', neg_relu)` with `alpha' = -alpha`
supplied by the registered weight modifier, `result = Add(pos, neg)` —
evaluates to `relu x + (-alpha) * relu (-x) = prelu x alpha`; in particular
`prelu 3 0.1 = 3`, `prelu (-2) 0.1 = -0.2` and `prelu 0 0.5 = 0`. -/
theorem c1_prelu_expansion :
    (∀ x a : Rat,
      ∃ wm, _split_prelu c1Node (buildIndex c1Graph) [] = Except.ok (c1Nodes, wm) ∧
        List.lookup "alpha" wm = some WeightMod.negate ∧
        ((evalNodes [("x", x), ("alpha", -a)] c1Nodes).bind
          (fun env => env.lookup "p/Add")) = some (relu x + (-a) * relu (-x)) ∧
        relu x + (-a) * relu (-x) = prelu x a) ∧
    prelu 3 (1/10) = 3 ∧ prelu (-2) (1/10) = -(1/5) ∧ prelu 0 (1/2) = 0 := by
  refine ⟨?_, by norm_num [prelu], by norm_num [prelu], by norm_num [prelu]⟩
  intro x a
  refine ⟨[("alpha", WeightMod.negate)], by decide, rfl, rfl, ?_⟩
  unfold relu prelu
  by_cases h : 0 ≤ x
  · rw [if_pos h, max_eq_left h, max_eq_right (neg_nonpos.mpr h)]
    ring
  · have h2 : x < 0 := lt_of_not_le h
    rw [if_neg h, max_eq_right h2.le, max_eq_left (neg_nonneg.mpr h2.le)]
    ring

/-- Claim C2 (counterexample): the bias-add node emitted by the fused-op
splitter receives the primitive's output FIRST and the original third input
second, not the order stated by the claim. -/
theorem c2_bias_order_cex :
    ∃ prim bias act reg,
      _split_fused_op cFusedNode (buildIndex cFusedGraph) [] =
        Except.ok ([prim, bias, act], reg) ∧
      cFusedNode.input.getD 2 "" = "b" ∧
      bias.input = [prim.name, "b"] ∧
      bias.input ≠ ["b", prim.name] := by
  refine ⟨⟨"w_1", "Conv2D", ["x", "w"], [("T", .other "float")]⟩,
    ⟨"b_1", "BiasAdd", ["w_1", "b"], [("T", .other "float")]⟩,
    ⟨"al_1", "Prelu", ["b_1", "al"], []⟩, [], by decide, by decide, by decide, by decide⟩

/-- Claim C2 (amended): for every matched fused node the splitter returns
exactly the three nodes `[primitive, bias-add, activation]`, where the
primitive's inputs are the original first two inputs, the bias-add's inputs
are the primitive's output followed by the original third input, and the
activation's inputs are the bias-add's output followed by the remaining
original inputs. -/
theorem c2_fused_split_structure (node : NodeDef) (index : NameToNode)
    (reg : WeightModifiers) (i0 i1 i2 i3 : String) (ir : List String)
    (f0 f1 : String) (fr : List String)
    (hin : node.input = i0 :: i1 :: i2 :: i3 :: ir)
    (hf : fusedOps node = some (f0 :: f1 :: fr)) :
    ∃ prim bias act,
      _split_fused_op node index reg = Except.ok ([prim, bias, act], reg) ∧
      prim.op = node.op.drop 6 ∧ prim.input = [i0, i1] ∧
      bias.op = f0 ∧ bias.input = [prim.name, i2] ∧
      act.op = f1 ∧ act.input = bias.name :: i3 :: ir := by
  obtain ⟨n1, n2, n3, hok⟩ :=
    split_fused_char2 node index reg i0 i1 i2 i3 ir f0 f1 fr hin hf
  exact ⟨_, _, _, hok, rfl, rfl, rfl, rfl, rfl, rfl⟩

/-- Claim C2 (witness): the amended split-structure theorem applied to the
concrete fused node `cFusedNode`. -/
theorem c2_fused_split_structure_witness :
    cFusedNode.input = ["x", "w", "b", "al"] ∧
    fusedOps cFusedNode = some ["BiasAdd", "Prelu"] ∧
    ∃ prim bias act,
      _split_fused_op cFusedNode (buildIndex cFusedGraph) [] =
        Except.ok ([prim, bias, act], []) ∧
      prim.op = cFusedNode.op.drop 6 ∧ prim.input = ["x", "w"] ∧
      bias.op = "BiasAdd" ∧ bias.input = [prim.name, "b"] ∧
      act.op = "Prelu" ∧ act.input = bias.name :: "al" :: [] :=
  ⟨rfl, rfl, c2_fused_split_structure cFusedNode (buildIndex cFusedGraph) []
    "x" "w" "b" "al" [] "BiasAdd" "Prelu" [] rfl rfl⟩

/-- Claim C3 (counterexample): only the primitive and the bias-add receive
the filtered attribute copy; the activation node's attribute map is empty and
differs from the filtered copy of the original attributes. -/
theorem c3_activation_attrs_cex :
    ∃ prim bias act reg,
      _split_fused_op cFusedNode (buildIndex cFusedGraph) [] =
        Except.ok ([prim, bias, act], reg) ∧
      cFusedNode.attr.filter (fun p => !(irrelevantAttrs.contains p.1)) =
        [("T", .other "float")] ∧
      prim.attr = [("T", .other "float")] ∧ bias.attr = [("T", .other "float")] ∧
      act.attr = [] ∧
      act.attr ≠ cFusedNode.attr.filter (fun p => !(irrelevantAttrs.contains p.1)) := by
  refine ⟨⟨"w_1", "Conv2D", ["x", "w"], [("T", .other "float")]⟩,
    ⟨"b_1", "BiasAdd", ["w_1", "b"], [("T", .other "float")]⟩,
    ⟨"al_1", "Prelu", ["b_1", "al"], []⟩, [], by decide, by decide, by decide,
    by decide, by decide, by decide⟩

/-- Claim C3 (amended): the primitive and the bias-add receive a filtered
copy of the original node's attributes with `fused_ops` dropped; the
activation node receives no attributes at all. -/
theorem c3_fused_split_attrs (node : NodeDef) (index : NameToNode)
    (reg : WeightModifiers) (i0 i1 i2 i3 : String) (ir : List String)
    (f0 f1 : String) (fr : List String)
    (hin : node.input = i0 :: i1 :: i2 :: i3 :: ir)
    (hf : fusedOps node = some (f0 :: f1 :: fr)) :
    ∃ prim bias act,
      _split_fused_op node index reg = Except.ok ([prim, bias, act], reg) ∧
      prim.attr = node.attr.filter (fun p => !(irrelevantAttrs.contains p.1)) ∧
      bias.attr = node.attr.filter (fun p => !(irrelevantAttrs.contains p.1)) ∧
      fusedOps prim = none ∧ fusedOps bias = none ∧
      act.attr = [] := by
  obtain ⟨n1, n2, n3, hok⟩ :=
    split_fused_char2 node index reg i0 i1 i2 i3 ir f0 f1 fr hin hf
  exact ⟨_, _, _, hok, rfl, rfl, fusedOps_copy_op_attrs _ _,
    fusedOps_copy_op_attrs _ _, rfl⟩

/-- Claim C3 (witness): the amended attribute theorem applied to the concrete
fused node `cFusedNode`. -/
theorem c3_fused_split_attrs_witness :
    fusedOps cFusedNode = some ["BiasAdd", "Prelu"] ∧
    ∃ prim bias act,
      _split_fused_op cFusedNode (buildIndex cFusedGraph) [] =
        Except.ok ([prim, bias, act], []) ∧
      prim.attr = cFusedNode.attr.filter (fun p => !(irrelevantAttrs.contains p.1)) ∧
      bias.attr = cFusedNode.attr.filter (fun p => !(irrelevantAttrs.contains p.1)) ∧
      fusedOps prim = none ∧ fusedOps bias = none ∧
      act.attr = [] :=
  ⟨rfl, c3_fused_split_attrs cFusedNode (buildIndex cFusedGraph) []
    "x" "w" "b" "al" [] "BiasAdd" "Prelu" [] rfl rfl⟩

/-- Claim C4 (counterexample): when the alpha input reference carries a port
decoration (`alphanode:0`), the weight modifier is registered under the raw
reference, which is not the producing node's name, so finalization never
negates the stored tensor: `[1, 2]` stays `[1, 2]` instead of becoming
`[-1, -2]`. -/
theorem c4_decorated_alpha_cex :
    replace_prelu c4Graph = Except.ok c4Out ∧
    (∃ m ∈ c4Out, m.name = "p/Add") ∧
    tensorAt c4Graph "alphanode" = some [1, 2] ∧
    tensorAt c4Out "alphanode" = some [1, 2] ∧
    tensorAt c4Out "alphanode" ≠ some [-1, -2] := by decide

/-- Claim C4 (amended): the Prelu expander registers the negation modifier
under the raw alpha input reference; when that reference is an undecorated
node name, the stored tensor `[1, 2]` becomes `[-1, -2]` after finalization,
exactly once, and re-running the pass on the rewritten graph leaves it
unchanged. -/
theorem c4_weight_modifier_registration :
    (∀ (node : NodeDef) (idx : NameToNode) (reg : WeightModifiers) (x0 aref : String)
      (rest : List String), node.input = x0 :: aref :: rest →
      ∃ ns, _split_prelu node idx reg = Except.ok (ns, setModifier reg aref .negate)) ∧
    tensorAt c4GraphPlain "alphanode" = some [1, 2] ∧
    replace_prelu c4GraphPlain = Except.ok c4PlainOut ∧
    tensorAt c4PlainOut "alphanode" = some [-1, -2] ∧
    replace_prelu c4PlainOut = Except.ok c4PlainOut := by
  refine ⟨?_, by decide, by decide, by decide, by decide⟩
  intro node idx reg x0 aref rest hin
  exact ⟨_, split_prelu_char node idx reg x0 aref rest hin⟩

/-- Claim C4 (witness): the registration half of the amended theorem applied
to the concrete Prelu node `c1Node`. -/
theorem c4_weight_modifier_registration_witness :
    ∃ ns, _split_prelu c1Node (buildIndex c1Graph) [] =
      Except.ok (ns, setModifier [] "alpha" .negate) :=
  c4_weight_modifier_registration.1 c1Node (buildIndex c1Graph) [] "x" "alpha" [] rfl

/-- Claim C5: when the composed pipeline (fused split, then Prelu
replacement) succeeds, its output contains no fused-Prelu and no standalone
Prelu match, and running the pipeline again on the output returns it
unchanged. -/
theorem c5_pipeline_idempotent (g g1 : GraphDef) (h : pipeline g = Except.ok g1) :
    (∀ n ∈ g1, fusedPreluPred n = false ∧ preluPred n = false) ∧
    pipeline g1 = Except.ok g1 := by
  unfold pipeline at h
  cases hs : split_fused_prelu g with
  | error e => rw [hs] at h; rw [exceptBind_error] at h; cases h
  | ok gA =>
    rw [hs] at h
    rw [exceptBind_ok] at h
    have hA : ∀ n ∈ gA, fusedPreluPred n = false := by
      obtain ⟨ns, rn, reg, hp, hgA⟩ :=
        replace_matching_nodes_inv g fusedPreluPred _split_fused_op gA hs
      subst hgA
      intro n hn
      rcases List.mem_map.mp hn with ⟨y1, hy1, rfl⟩
      rcases List.mem_map.mp hy1 with ⟨y, hy, rfl⟩
      rw [fusedPreluPred_transport]
      rcases processPass_mem _ _ _ g [] ns rn reg hp y hy with
        ⟨-, hfa⟩ | ⟨m, -, -, r1, out, r2, hb, hyo⟩
      · exact hfa
      · exact split_fused_out_pred_false m _ r1 out r2 hb y hyo
    have h1 : ∀ n ∈ g1, fusedPreluPred n = false ∧ preluPred n = false := by
      obtain ⟨ns, rn, reg, hp, hg1⟩ :=
        replace_matching_nodes_inv gA preluPred _split_prelu g1 h
      subst hg1
      intro n hn
      rcases List.mem_map.mp hn with ⟨y1, hy1, rfl⟩
      rcases List.mem_map.mp hy1 with ⟨y, hy, rfl⟩
      rw [fusedPreluPred_transport, preluPred_transport]
      rcases processPass_mem _ _ _ gA [] ns rn reg hp y hy with
        ⟨hm, hfa⟩ | ⟨m, -, -, r1, out, r2, hb, hyo⟩
      · exact ⟨hA y hm, hfa⟩
      · have hyp := split_prelu_out_pred_false m _ r1 out r2 hb y hyo
        exact ⟨hyp.2, hyp.1⟩
    refine ⟨h1, ?_⟩
    unfold pipeline split_fused_prelu replace_prelu
    rw [replace_matching_nodes_nomatch g1 _ _ (fun n hn => (h1 n hn).1), exceptBind_ok]
    exact replace_matching_nodes_nomatch g1 _ _ (fun n hn => (h1 n hn).2)

/-- Claim C5 (witness): the idempotence theorem applied to the concrete graph
`cFusedGraph` and its pipeline output. -/
theorem c5_pipeline_idempotent_witness :
    pipeline cFusedGraph = Except.ok cFusedOut ∧
    pipeline cFusedOut = Except.ok cFusedOut :=
  ⟨by decide, (c5_pipeline_idempotent cFusedGraph cFusedOut (by decide)).2⟩

/-- Claim C6: a node matching the fused-activation predicate whose
`fused_ops` attribute has too few entries makes the builder fail with an
UnsupportedPatternError carrying the node's name, and the whole rewrite pass
surfaces the error to the caller instead of skipping the node. -/
theorem c6_malformed_fused_ops_error (g : GraphDef) (n : NodeDef) (fl : List String)
    (hmem : n ∈ g) (hpred : fusedPreluPred n = true)
    (hf : fusedOps n = some fl) (hlen : fl.length < 2) :
    (∀ (idx : NameToNode) (r : WeightModifiers),
      _split_fused_op n idx r = .error (.unsupportedPattern n.name)) ∧
    ∃ nm, split_fused_prelu g = .error (.unsupportedPattern nm) := by
  refine ⟨fun idx r => split_fused_malformed n idx r fl hf hlen, ?_⟩
  obtain ⟨e, he⟩ := processPass_error fusedPreluPred _split_fused_op (buildIndex g) g [] n
    hmem hpred (fun r => split_fused_malformed n (buildIndex g) r fl hf hlen)
  cases e with
  | unsupportedPattern nm =>
    refine ⟨nm, ?_⟩
    unfold split_fused_prelu replace_matching_nodes
    rw [he, exceptBind_error]

/-- Claim C6 (witness): the malformed-pattern theorem applied to the concrete
node `c10Node`, whose `fused_ops` list has a single entry. -/
theorem c6_malformed_fused_ops_error_witness :
    (∀ (idx : NameToNode) (r : WeightModifiers),
      _split_fused_op c10Node idx r = Except.error (.unsupportedPattern c10Node.name)) ∧
    ∃ nm, split_fused_prelu [c10Node] = Except.error (.unsupportedPattern nm) :=
  c6_malformed_fused_ops_error [c10Node] c10Node ["Prelu"] (by decide) (by decide)
    rfl (by decide)

/-- Claim C7 (counterexample): an input graph containing a node named
`p/Relu` next to a Prelu node named `p` makes the rewrite emit two distinct
nodes that both carry the name `p/Relu_1`, so the output's node names are not
pairwise distinct. -/
theorem c7_name_collision_cex :
    (nodeNames c7Graph).Nodup ∧
    pipeline c7Graph = Except.ok c7Out ∧
    ¬ (nodeNames c7Out).Nodup := by decide

/-- Claim C7 (amended): provided the candidate names derived by the Prelu
expander (matched node's name plus fixed suffix) are pairwise distinct and
absent from the input graph's names, all node names in the output of the
Prelu-replacement pass are pairwise distinct. -/
theorem c7_output_names_unique (g g1 : GraphDef) (hf : preluFresh g)
    (h : replace_prelu g = Except.ok g1) : (nodeNames g1).Nodup := by
  obtain ⟨reg, hg1, -⟩ := replace_prelu_char g g1 hf h
  rw [hg1, nodeNames_double_map, nodeNames_preluExpand]
  exact ((expandNames_perm g).nodup_iff).mpr (unmatched_cands_nodup g hf)

/-- Claim C7 (witness): the uniqueness theorem applied to the concrete graph
`c9Graph`, whose derived candidate names are fresh. -/
theorem c7_output_names_unique_witness :
    preluFresh c9Graph ∧ (nodeNames c9Out).Nodup :=
  ⟨by decide, c7_output_names_unique c9Graph c9Out (by decide) (by decide)⟩

/-- Claim C8 (counterexample): a valid input graph — distinct names, all
references resolving, acyclic — with two fused-Prelu nodes sharing the same
weights input, the second consuming the first's output, is rewritten into a
graph whose name-reference relation contains the cycle
`w_1 → b1_1 → a1_1/Relu → a1_1/Add → w_1`. -/
theorem c8_cycle_cex :
    (nodeNames c8Graph).Nodup ∧ Resolves c8Graph ∧ AcyclicG c8Graph ∧
    pipeline c8Graph = Except.ok c8Out ∧ ¬ AcyclicG c8Out := by
  refine ⟨by decide, by decide,
    ⟨fun nm => if nm = "F1" then 1 else if nm = "F2" then 2 else 0, by decide⟩,
    by decide, ?_⟩
  rintro ⟨r, hr⟩
  have h1 := hr ⟨"b1_1", "BiasAdd", ["w_1", "b1"], []⟩ (by decide) "w_1" (by decide)
  have h2 := hr ⟨"a1_1/Relu", "Relu", ["b1_1"], []⟩ (by decide) "b1_1" (by decide)
  have h3 := hr ⟨"a1_1/Add", "Add", ["a1_1/Relu", "a1_1/Mul"], []⟩ (by decide)
    "a1_1/Relu" (by decide)
  have h4 := hr ⟨"w_1", "Conv2D", ["a1_1/Add", "w"], []⟩ (by decide) "a1_1/Add" (by decide)
  rw [show nodeNameOf "w_1" = "w_1" from rfl] at h1
  rw [show nodeNameOf "b1_1" = "b1_1" from rfl] at h2
  rw [show nodeNameOf "a1_1/Relu" = "a1_1/Relu" from rfl] at h3
  rw [show nodeNameOf "a1_1/Add" = "a1_1/Add" from rfl] at h4
  exact lt_irrefl _ (((h1.trans h2).trans h3).trans h4)

/-- Claim C8 (amended): for an input graph with undecorated node names, all
references resolving, acyclic, and whose Prelu candidate names are fresh, the
Prelu-replacement pass produces a graph in which every reference resolves and
which is again acyclic. -/
theorem c8_referential_integrity (g g1 : GraphDef) (hf : preluFresh g)
    (hpl : PlainNames g) (hres : Resolves g) (ha : AcyclicG g)
    (h : replace_prelu g = Except.ok g1) : Resolves g1 ∧ AcyclicG g1 := by
  obtain ⟨r, hr⟩ := ha
  obtain ⟨h1, h2⟩ := c8_main g g1 hf hpl hres r hr h
  exact ⟨h1, ⟨preluRank g r, h2⟩⟩

/-- Claim C8 (witness): the integrity theorem applied to the concrete graph
`c4GraphPlain`. -/
theorem c8_referential_integrity_witness :
    Resolves c4PlainOut ∧ AcyclicG c4PlainOut :=
  c8_referential_integrity c4GraphPlain c4PlainOut (by decide) (by decide) (by decide)
    ⟨fun nm => if nm = "p" then 1 else 0, by decide⟩ (by decide)

/-- Claim C9: registering a weight modifier overwrites any existing entry for
the same key, so a shared alpha tensor is negated exactly once; concretely,
two Prelu nodes sharing the alpha constant `[1, 2]` leave it at `[-1, -2]`
after the pass, not back at `[1, 2]`. -/
theorem c9_shared_alpha_modifier_once :
    (∀ (r : WeightModifiers) (k : String) (m : WeightMod),
      List.lookup k (setModifier r k m) = some m ∧
      setModifier (setModifier r k m) k m = setModifier r k m) ∧
    replace_prelu c9Graph = Except.ok c9Out ∧
    tensorAt c9Graph "al" = some [1, 2] ∧
    tensorAt c9Out "al" = some [-1, -2] ∧
    WeightMod.negate.apply [1, 2] = [-1, -2] ∧
    tensorAt c9Out "al" ≠ some (WeightMod.negate.apply (WeightMod.negate.apply [1, 2])) :=
  ⟨fun r k m => ⟨lookup_setModifier r k m, setModifier_idem r k m⟩,
    by decide, by decide, by decide, by decide, by decide⟩

/-- Claim C10 (counterexample): the node `c10Node` matches the fused-Prelu
predicate and has four inputs, yet the splitter fails, because its
`fused_ops` list has only one entry — the predicate does not guarantee the
splitter's precondition. -/
theorem c10_predicate_gap_cex :
    fusedPreluPred c10Node = true ∧ c10Node.input.length = 4 ∧
    _split_fused_op c10Node (buildIndex cFusedGraph) [] =
      Except.error (.unsupportedPattern "f") := by decide

/-- Claim C10 (amended): the fused-op splitter succeeds exactly when the node
has at least four inputs and a decoded `fused_ops` list with at least two
entries; under the fused-Prelu predicate together with those two bounds the
error branch is unreachable. -/
theorem c10_split_totality (node : NodeDef) (index : NameToNode)
    (reg : WeightModifiers) :
    ((∃ res, _split_fused_op node index reg = Except.ok res) ↔
      (4 ≤ node.input.length ∧ ∃ fl, fusedOps node = some fl ∧ 2 ≤ fl.length)) ∧
    (fusedPreluPred node = true → 4 ≤ node.input.length →
      (∀ fl, fusedOps node = some fl → 2 ≤ fl.length) →
      ∃ res, _split_fused_op node index reg = Except.ok res) := by
  have hbwd : 4 ≤ node.input.length →
      (∃ fl, fusedOps node = some fl ∧ 2 ≤ fl.length) →
      ∃ res, _split_fused_op node index reg = Except.ok res := by
    rintro hlen ⟨fl, hfo, hfl⟩
    match hlin : node.input, hlen with
    | i0 :: i1 :: i2 :: i3 :: ir, _ =>
      match hflin : fl, hfl with
      | f0 :: f1 :: fr, _ =>
        obtain ⟨n1, n2, n3, hok⟩ :=
          split_fused_char2 node index reg i0 i1 i2 i3 ir f0 f1 fr hlin (hflin ▸ hfo)
        exact ⟨_, hok⟩
  refine ⟨⟨?_, fun hc => hbwd hc.1 hc.2⟩, ?_⟩
  · rintro ⟨res, hres⟩
    exact split_fused_ok_necessary node index reg res hres
  · intro hpred hlen hfl
    obtain ⟨fl, hfo, -⟩ := fusedPred_fusedOps_some node hpred
    exact hbwd hlen ⟨fl, hfo, hfl fl hfo⟩

/-- Claim C10 (witness): the sufficiency half of the totality theorem applied
to the concrete, well-formed fused node `cFusedNode`. -/
theorem c10_split_totality_witness :
    ∃ res, _split_fused_op cFusedNode (buildIndex cFusedGraph) [] = Except.ok res :=
  (c10_split_totality cFusedNode (buildIndex cFusedGraph) []).2 (by decide) (by decide)
    (fun fl hfo => by
      rw [show fusedOps cFusedNode = some ["BiasAdd", "Prelu"] from rfl] at hfo
      cases hfo
      decide)

end PreluRewrite
